import Mathlib

/-!
Verification of the stream-more repository: the k-way merge engine (KMerge),
the coalesce adapter (Coalesce) and the comparator helpers, shallowly embedded
from the Rust sources.

Modelling conventions:
- A producer (Rust `Stream`) is modelled as a finite script of poll outcomes,
  one per call to `poll_next`: `Poll.pending` (not ready), `Poll.ready (some d)`
  (an item) or `Poll.ready none` (end of sequence).  Polling an exhausted
  script (empty list) answers `Poll.ready none`, modelling a well behaved
  fused stream.
- Comparators and combine closures are passed as explicit function arguments
  instead of being stored inside the structures (Rust stores them as fields;
  they are immutable during polling, so this is behaviour preserving and keeps
  the state types decidably comparable).
- The binary heap (the external crate `binary_heap_plus`, out of scope per the
  spec) is modelled by its interface: a list of entries together with a
  selection function that picks a maximal entry under the entry ordering.
  Tie-break among equal-ranked entries is unspecified by the spec; the model
  fixes it as the leftmost maximal entry.
-/

namespace StreamMore

/-- Rust's `Poll`: either not ready, or a ready value.  Instantiated at
`Option D` it is the outcome of one `poll_next` call. -/
inductive Poll (A : Type) where
  | pending
  | ready (v : A)
deriving DecidableEq, Repr

/-- A scripted producer: the list of answers its successive polls give.
From src/stream_more tests, a stream is exactly such a poll script. -/
abbrev Script (D : Type) := List (Poll (Option D))

/-- Poll a scripted producer once: consume and return the head outcome; an
exhausted script keeps answering end-of-sequence (fused stream). -/
def pollScript {D : Type} (s : Script D) : Poll (Option D) × Script D :=
  match s with
  | [] => (.ready none, [])
  | p :: rest => (p, rest)

/-- A pure producer that yields the items of `l` in order and then ends.  Used
for the spec's sorted-list inputs. -/
def ofList {D : Type} (l : List D) : Script D :=
  l.map (fun d => .ready (some d))

/-- From src/stream_more/peeked/mod.rs: the lookahead cell, `No` (not yet
peeked) or `Yes d` (holding one buffered item). -/
inductive Peeked (D : Type) where
  | no
  | yes (d : D)
deriving DecidableEq, Repr

/-- From src/stream_more/peeked/mod.rs: `has_peeked`. -/
def Peeked.has_peeked {D : Type} : Peeked D → Bool
  | .yes _ => true
  | .no => false

/-- From src/stream_more/peeked/mod.rs: `From<Peeked<D>> for Option<D>`. -/
def Peeked.toOption {D : Type} : Peeked D → Option D
  | .yes d => some d
  | .no => none

/-- From src/stream_more/kmerge/heap_entry.rs: one merged producer together
with its lookahead cell and diagnostic id. -/
structure HeapEntry (D : Type) where
  peeked : Peeked D
  stream : Script D
  id : String
deriving DecidableEq, Repr

/-- From src/stream_more/kmerge/heap_entry.rs: `HeapEntry::new`. -/
def HeapEntry.new {D : Type} (s : Script D) : HeapEntry D :=
  { peeked := .no, stream := s, id := "" }

/-- From src/stream_more/kmerge/heap_entry.rs: `HeapEntry::with_id`. -/
def HeapEntry.with_id {D : Type} (e : HeapEntry D) (i : Nat) : HeapEntry D :=
  { e with id := toString i }

/-- From src/stream_more/kmerge/heap_entry.rs: `HeapEntryCmp::compare` on
`Peeked` values: `No` above any `Yes`, two `No`s equal, two `Yes`s by the
user comparator. -/
def heapEntryCmp {D : Type} (cmp : D → D → Ordering) :
    Peeked D → Peeked D → Ordering
  | .no, .no => .eq
  | .no, .yes _ => .gt
  | .yes _, .no => .lt
  | .yes a, .yes b => cmp a b

/-- From src/stream_more/kmerge/heap_entry.rs: `HeapEntryCmp::compare` on
`HeapEntry`, delegating to the peeked cells. -/
def entryCompare {D : Type} (cmp : D → D → Ordering) (l r : HeapEntry D) :
    Ordering :=
  heapEntryCmp cmp l.peeked r.peeked

/-- From src/stream_more/comparators.rs: `Descending`, comparing by natural
order (`l.cmp(r)`), so the maximum is chosen first. -/
def descendingCmp {D : Type} [Ord D] (l r : D) : Ordering := compare l r

/-- From src/stream_more/comparators.rs: `Ascending`, comparing by reversed
natural order (`r.cmp(l)`), so the minimum is chosen first. -/
def ascendingCmp {D : Type} [Ord D] (l r : D) : Ordering := compare r l

/-- From src/stream_more/comparators.rs: `FnCmp`, wrapping a choosing
predicate: `Greater` when the predicate holds, `Less` otherwise. -/
def fnCmp {D : Type} (f : D → D → Bool) (l r : D) : Ordering :=
  if f l r then .gt else .lt

/-- Modelled from the spec: the external priority structure's
`peek_top_mutable` selection.  Splits the entry list as
`before ++ chosen :: after` where `chosen` is a maximal entry under the entry
ordering relation; among equal-ranked entries the spec leaves the choice
unspecified and the model takes the leftmost. -/
def pickTop {D : Type} (cmp : D → D → Ordering) :
    List (HeapEntry D) → Option (List (HeapEntry D) × HeapEntry D × List (HeapEntry D))
  | [] => none
  | e :: rest =>
    match pickTop cmp rest with
    | none => some ([], e, [])
    | some (b, c, a) =>
      if entryCompare cmp c e = .gt then some (e :: b, c, a) else some ([], e, rest)

/-- Count of entries whose lookahead cell is still empty. -/
def countNo {D : Type} (l : List (HeapEntry D)) : Nat :=
  l.countP (fun e => !e.peeked.has_peeked)

theorem pickTop_eq_none {D : Type} (cmp : D → D → Ordering) (l : List (HeapEntry D)) :
    pickTop cmp l = none ↔ l = [] := by
  cases l with
  | nil => simp [pickTop]
  | cons x rest =>
    simp only [pickTop]
    cases pickTop cmp rest with
    | none => simp
    | some t =>
      obtain ⟨b, c, a⟩ := t
      by_cases hgt : entryCompare cmp c x = .gt <;> simp [hgt]

theorem pickTop_split {D : Type} (cmp : D → D → Ordering) :
    ∀ (l b : List (HeapEntry D)) (e : HeapEntry D) (a : List (HeapEntry D)),
    pickTop cmp l = some (b, e, a) → l = b ++ e :: a := by
  intro l
  induction l with
  | nil => intro b e a h; simp [pickTop] at h
  | cons x rest ih =>
    intro b e a h
    simp only [pickTop] at h
    cases hr : pickTop cmp rest with
    | none =>
      rw [hr] at h
      simp only [Option.some.injEq, Prod.mk.injEq] at h
      obtain ⟨hb, he, ha⟩ := h
      rw [(pickTop_eq_none cmp rest).mp hr]
      simp [← hb, ← he, ← ha]
    | some t =>
      obtain ⟨b', c', a'⟩ := t
      rw [hr] at h
      dsimp only at h
      by_cases hgt : entryCompare cmp c' x = .gt
      · rw [if_pos hgt] at h
        simp only [Option.some.injEq, Prod.mk.injEq] at h
        obtain ⟨hb, he, ha⟩ := h
        rw [← hb, ← he, ← ha]
        simpa using ih b' c' a' hr
      · rw [if_neg hgt] at h
        simp only [Option.some.injEq, Prod.mk.injEq] at h
        obtain ⟨hb, he, ha⟩ := h
        rw [← hb, ← he, ← ha]
        simp

/-- From src/stream_more/kmerge/kmerge.rs: one iteration of the `poll_next`
loop, acting on a chosen maximal entry `e` of the heap split `b ++ e :: a`:
if `e`'s cell holds a value it is taken (reset to empty) and returned;
otherwise `e`'s producer is polled once: not ready is propagated to the
caller, an item fills the cell and the loop continues, end-of-sequence
removes the entry and the loop continues.  `.inl` is an immediate return,
`.inr` the heap the loop continues with. -/
def stepHeap {D : Type} (b : List (HeapEntry D)) (e : HeapEntry D) (a : List (HeapEntry D)) :
    (Poll (Option D) × List (HeapEntry D)) ⊕ List (HeapEntry D) :=
  match e.peeked with
  | .yes d => .inl (.ready (some d), b ++ { e with peeked := .no } :: a)
  | .no =>
    match (pollScript e.stream).1 with
    | .pending => .inl (.pending, b ++ { e with stream := (pollScript e.stream).2 } :: a)
    | .ready (some d) =>
      .inr (b ++ { e with peeked := .yes d, stream := (pollScript e.stream).2 } :: a)
    | .ready none => .inr (b ++ a)

theorem stepHeap_measure {D : Type} (b : List (HeapEntry D)) (e : HeapEntry D)
    (a l2 : List (HeapEntry D)) (h : stepHeap b e a = .inr l2) :
    l2.length + countNo l2 < (b ++ e :: a).length + countNo (b ++ e :: a) := by
  unfold stepHeap at h
  cases hp : e.peeked with
  | yes d => rw [hp] at h; cases h
  | no =>
    rw [hp] at h
    cases hs : e.stream with
    | nil =>
      rw [hs] at h
      simp only [pollScript] at h
      cases h
      simp [countNo, List.countP_append, List.countP_cons, hp, Peeked.has_peeked]
      omega
    | cons pr rest =>
      rw [hs] at h
      simp only [pollScript] at h
      cases pr with
      | pending => cases h
      | ready v =>
        cases v with
        | none =>
          cases h
          simp [countNo, List.countP_append, List.countP_cons, hp, Peeked.has_peeked]
          omega
        | some d =>
          cases h
          simp only [countNo, List.countP_append, List.countP_cons, List.length_append,
            List.length_cons, hp, Peeked.has_peeked]
          simp

/-- From src/stream_more/kmerge/kmerge.rs: the loop of `KMerge::poll_next`,
acting on the heap contents: repeat `stepHeap` on a maximal entry until an
answer is produced; an empty heap answers end-of-sequence. -/
def pollNextL {D : Type} (cmp : D → D → Ordering) (l : List (HeapEntry D)) :
    Poll (Option D) × List (HeapEntry D) :=
  match h : pickTop cmp l with
  | none => (.ready none, l)
  | some (b, e, a) =>
    match hs : stepHeap b e a with
    | .inl r => r
    | .inr l2 => pollNextL cmp l2
termination_by l.length + countNo l
decreasing_by
  have hm := stepHeap_measure b e a l2 hs
  rw [← pickTop_split cmp l b e a h] at hm
  exact hm

theorem pollNextL_eq_none {D : Type} {cmp : D → D → Ordering} {l : List (HeapEntry D)}
    (h : pickTop cmp l = none) : pollNextL cmp l = (.ready none, l) := by
  rw [pollNextL]
  split
  · rfl
  · next b e a hpt => rw [h] at hpt; cases hpt

theorem pollNextL_eq_inl {D : Type} {cmp : D → D → Ordering} {l b a : List (HeapEntry D)}
    {e : HeapEntry D} {r : Poll (Option D) × List (HeapEntry D)}
    (h : pickTop cmp l = some (b, e, a)) (hs : stepHeap b e a = .inl r) :
    pollNextL cmp l = r := by
  rw [pollNextL]
  split
  · next hpt => rw [h] at hpt; cases hpt
  · next b' e' a' hpt =>
    rw [h] at hpt
    injection hpt with hpt'
    injection hpt' with h1 hpt''
    injection hpt'' with h2 h3
    subst h1; subst h2; subst h3
    split
    · next r' hsr => rw [hs] at hsr; injection hsr with hr; rw [hr]
    · next l2 hsr => rw [hs] at hsr; cases hsr

theorem pollNextL_eq_inr {D : Type} {cmp : D → D → Ordering} {l b a l2 : List (HeapEntry D)}
    {e : HeapEntry D}
    (h : pickTop cmp l = some (b, e, a)) (hs : stepHeap b e a = .inr l2) :
    pollNextL cmp l = pollNextL cmp l2 := by
  rw [pollNextL]
  split
  · next hpt => rw [h] at hpt; cases hpt
  · next b' e' a' hpt =>
    rw [h] at hpt
    injection hpt with hpt'
    injection hpt' with h1 hpt''
    injection hpt'' with h2 h3
    subst h1; subst h2; subst h3
    split
    · next r' hsr => rw [hs] at hsr; cases hsr
    · next l2' hsr => rw [hs] at hsr; injection hsr with hr; rw [hr]

/-- Remaining work of one entry: unconsumed script cells plus the buffered
lookahead item, if any. -/
def weight {D : Type} (e : HeapEntry D) : Nat :=
  e.stream.length + (if e.peeked.has_peeked then 1 else 0)

/-- Remaining work of a whole heap. -/
def weightL {D : Type} (l : List (HeapEntry D)) : Nat :=
  (l.map weight).sum

theorem stepHeap_weight_inl {D : Type} {b a : List (HeapEntry D)} {e : HeapEntry D}
    {r : Poll (Option D) × List (HeapEntry D)}
    (h : stepHeap b e a = .inl r) (ho : r.1 ≠ .ready none) :
    weightL r.2 < weightL (b ++ e :: a) := by
  unfold stepHeap at h
  cases hp : e.peeked with
  | yes d =>
    rw [hp] at h
    cases h
    simp [weightL, weight, hp, Peeked.has_peeked, List.map_append, List.sum_append]
  | no =>
    rw [hp] at h
    cases hs : e.stream with
    | nil =>
      rw [hs] at h
      simp only [pollScript] at h
      cases h
    | cons pr rest =>
      rw [hs] at h
      simp only [pollScript] at h
      cases pr with
      | pending =>
        cases h
        simp [weightL, weight, hs, hp, Peeked.has_peeked, List.map_append, List.sum_append]
      | ready v =>
        cases v with
        | none => cases h
        | some d => cases h

theorem stepHeap_weight_inr {D : Type} {b a l2 : List (HeapEntry D)} {e : HeapEntry D}
    (h : stepHeap b e a = .inr l2) :
    weightL l2 ≤ weightL (b ++ e :: a) := by
  unfold stepHeap at h
  cases hp : e.peeked with
  | yes d => rw [hp] at h; cases h
  | no =>
    rw [hp] at h
    cases hs : e.stream with
    | nil =>
      rw [hs] at h
      simp only [pollScript] at h
      cases h
      simp [weightL, weight, List.map_append, List.sum_append]
      try omega
    | cons pr rest =>
      rw [hs] at h
      simp only [pollScript] at h
      cases pr with
      | pending => cases h
      | ready v =>
        cases v with
        | none =>
          cases h
          simp [weightL, weight, List.map_append, List.sum_append]
          try omega
        | some d =>
          cases h
          simp [weightL, weight, hp, hs, Peeked.has_peeked, List.map_append, List.sum_append]

theorem pollNextL_weight {D : Type} (cmp : D → D → Ordering) (l : List (HeapEntry D)) :
    ∀ o l', pollNextL cmp l = (o, l') → o ≠ .ready none → weightL l' < weightL l := by
  induction l using pollNextL.induct cmp with
  | case1 l h =>
    intro o l' he ho
    rw [pollNextL_eq_none h] at he
    cases he
    exact absurd rfl ho
  | case2 l b e a h r hs =>
    intro o l' he ho
    rw [pollNextL_eq_inl h hs] at he
    subst he
    have := stepHeap_weight_inl hs ho
    rw [← pickTop_split cmp l b e a h] at this
    exact this
  | case3 l b e a h l2 hs ih =>
    intro o l' he ho
    rw [pollNextL_eq_inr h hs] at he
    have h1 := ih o l' he ho
    have h2 := stepHeap_weight_inr hs
    rw [← pickTop_split cmp l b e a h] at h2
    omega

/-- Drive the merge loop to completion, collecting every emitted item; a
not-ready answer is retried (the executor re-polls after wake-up), and
end-of-sequence stops. -/
def runK {D : Type} (cmp : D → D → Ordering) (l : List (HeapEntry D)) : List D :=
  match hr : pollNextL cmp l with
  | (.ready none, _) => []
  | (.ready (some d), l') => d :: runK cmp l'
  | (.pending, l') => runK cmp l'
termination_by weightL l
decreasing_by
  · exact pollNextL_weight cmp l _ _ hr (by simp)
  · exact pollNextL_weight cmp l _ _ hr (by simp)

theorem runK_eq_none {D : Type} {cmp : D → D → Ordering} {l l' : List (HeapEntry D)}
    (h : pollNextL cmp l = (.ready none, l')) : runK cmp l = [] := by
  rw [runK]
  split
  · rfl
  · next d l2 hr => rw [h] at hr; cases hr
  · next l2 hr => rw [h] at hr; cases hr

theorem runK_eq_some {D : Type} {cmp : D → D → Ordering} {l l' : List (HeapEntry D)} {d : D}
    (h : pollNextL cmp l = (.ready (some d), l')) : runK cmp l = d :: runK cmp l' := by
  rw [runK]
  split
  · next l2 hr => rw [h] at hr; cases hr
  · next d' l2 hr =>
    rw [h] at hr
    injection hr with h1 h2
    injection h1 with h1'
    injection h1' with h1''
    subst h1''; subst h2
    rfl
  · next l2 hr => rw [h] at hr; cases hr

theorem runK_eq_pending {D : Type} {cmp : D → D → Ordering} {l l' : List (HeapEntry D)}
    (h : pollNextL cmp l = (.pending, l')) : runK cmp l = runK cmp l' := by
  rw [runK]
  split
  · next l2 hr => rw [h] at hr; cases hr
  · next d l2 hr => rw [h] at hr; cases hr
  · next l2 hr =>
    rw [h] at hr
    injection hr with h1 h2
    subst h2
    rfl

/-- Fuel-indexed, structurally recursive copy of the merge loop, used to
evaluate concrete runs by kernel reduction; agrees with `pollNextL` once the
fuel exceeds the loop measure. -/
def pollNextF {D : Type} (cmp : D → D → Ordering) :
    Nat → List (HeapEntry D) → Poll (Option D) × List (HeapEntry D)
  | 0, l => (.ready none, l)
  | fuel+1, l =>
    match pickTop cmp l with
    | none => (.ready none, l)
    | some (b, e, a) =>
      match stepHeap b e a with
      | .inl r => r
      | .inr l2 => pollNextF cmp fuel l2

theorem pollNextF_eq {D : Type} (cmp : D → D → Ordering) :
    ∀ (fuel : Nat) (l : List (HeapEntry D)), l.length + countNo l < fuel →
    pollNextF cmp fuel l = pollNextL cmp l := by
  intro fuel
  induction fuel with
  | zero => intro l h; exact absurd h (Nat.not_lt_zero _)
  | succ n ih =>
    intro l h
    cases hp : pickTop cmp l with
    | none => rw [pollNextL_eq_none hp]; simp [pollNextF, hp]
    | some t =>
      obtain ⟨b, e, a⟩ := t
      cases hs : stepHeap b e a with
      | inl r => rw [pollNextL_eq_inl hp hs]; simp [pollNextF, hp, hs]
      | inr l2 =>
        rw [pollNextL_eq_inr hp hs]
        have hm := stepHeap_measure b e a l2 hs
        rw [← pickTop_split cmp l b e a hp] at hm
        have hrec := ih l2 (by omega)
        simp [pollNextF, hp, hs, hrec]

/-- Executable form of `pollNextL`: run the fuelled loop with enough fuel. -/
def pollNextE {D : Type} (cmp : D → D → Ordering) (l : List (HeapEntry D)) :
    Poll (Option D) × List (HeapEntry D) :=
  pollNextF cmp (l.length + countNo l + 1) l

theorem pollNextE_eq {D : Type} (cmp : D → D → Ordering) (l : List (HeapEntry D)) :
    pollNextE cmp l = pollNextL cmp l :=
  pollNextF_eq cmp _ l (by omega)

/-- Fuel-indexed, structurally recursive copy of the merge run, used to
evaluate concrete runs by kernel reduction. -/
def runKF {D : Type} (cmp : D → D → Ordering) : Nat → List (HeapEntry D) → List D
  | 0, _ => []
  | fuel+1, l =>
    match pollNextE cmp l with
    | (.ready none, _) => []
    | (.ready (some d), l') => d :: runKF cmp fuel l'
    | (.pending, l') => runKF cmp fuel l'

theorem runKF_eq {D : Type} (cmp : D → D → Ordering) :
    ∀ (fuel : Nat) (l : List (HeapEntry D)), weightL l < fuel →
    runKF cmp fuel l = runK cmp l := by
  intro fuel
  induction fuel with
  | zero => intro l h; exact absurd h (Nat.not_lt_zero _)
  | succ n ih =>
    intro l h
    rcases hpl : pollNextL cmp l with ⟨o, l'⟩
    cases o with
    | pending =>
      rw [runK_eq_pending hpl]
      have hw := pollNextL_weight cmp l _ _ hpl (by simp)
      have hrec := ih l' (by omega)
      simp [runKF, pollNextE_eq, hpl, hrec]
    | ready v =>
      cases v with
      | none => rw [runK_eq_none hpl]; simp [runKF, pollNextE_eq, hpl]
      | some d =>
        rw [runK_eq_some hpl]
        have hw := pollNextL_weight cmp l _ _ hpl (by simp)
        have hrec := ih l' (by omega)
        simp [runKF, pollNextE_eq, hpl, hrec]

/-- From src/stream_more/kmerge/kmerge.rs: the `KMerge` engine state: the
user comparator, the producer id counter and the heap of merge entries. -/
structure KMerge (D : Type) where
  cmp : D → D → Ordering
  curr_id : Nat
  heap : List (HeapEntry D)

/-- From src/stream_more/kmerge/kmerge.rs: `KMerge::by_cmp`: empty engine
with counter 0. -/
def KMerge.by_cmp {D : Type} (cmp : D → D → Ordering) : KMerge D :=
  { cmp := cmp, curr_id := 0, heap := [] }

/-- From src/stream_more/kmerge/kmerge.rs: `KMerge::by` (that word is a Lean
keyword, hence the name `byFirst`): wraps the predicate in `FnCmp`. -/
def KMerge.byFirst {D : Type} (f : D → D → Bool) : KMerge D :=
  KMerge.by_cmp (fnCmp f)

/-- From src/stream_more/kmerge/kmerge.rs: `KMerge::merge`: bump the counter
and push a fresh entry (empty lookahead cell, next id) for the new producer. -/
def KMerge.merge {D : Type} (km : KMerge D) (s : Script D) : KMerge D :=
  { km with
    curr_id := km.curr_id + 1,
    heap := km.heap ++ [(HeapEntry.new s).with_id (km.curr_id + 1)] }

/-- From src/stream_more/kmerge/kmerge.rs: `KMerge::poll_next` as a state
transformer on the engine. -/
def KMerge.poll_next {D : Type} (km : KMerge D) : Poll (Option D) × KMerge D :=
  let r := pollNextL km.cmp km.heap
  (r.1, { km with heap := r.2 })

theorem KMerge.by_cmp_cmp {D : Type} (cmp : D → D → Ordering) :
    (KMerge.by_cmp cmp).cmp = cmp := rfl

theorem KMerge.merge_cmp {D : Type} (km : KMerge D) (s : Script D) :
    (km.merge s).cmp = km.cmp := rfl

/-- Collect the engine's full output sequence. -/
def KMerge.run {D : Type} (km : KMerge D) : List D :=
  runK km.cmp km.heap

/-- From src/stream_more/coalesce/coalesce.rs: the `Coalesce` state: the
pending item, the finished flag and the inner producer. -/
structure Coalesce (T : Type) where
  prev : Option T
  finished : Bool
  inner : Script T
deriving DecidableEq, Repr

/-- From src/stream_more/coalesce/coalesce.rs: `Coalesce::new`. -/
def Coalesce.new {T : Type} (s : Script T) : Coalesce T :=
  { prev := none, finished := false, inner := s }

/-- From src/stream_more/coalesce/coalesce.rs: one iteration of the
`poll_next` loop after the inner producer answered `pr` (with script
remainder `rest`): take the pending item and dispatch on the
(pending, current) pair exactly as the source match does; `.inl` is an
immediate return, `.inr` the state the loop continues with.  Not-ready is
propagated before the pending item is touched (the source's `ready!`). -/
def coStep {T : Type} (f : T → T → Except (T × T) T) (prev : Option T)
    (pr : Poll (Option T)) (rest : Script T) :
    (Poll (Option T) × Coalesce T) ⊕ Coalesce T :=
  match pr with
  | .pending => .inl (.pending, { prev := prev, finished := false, inner := rest })
  | .ready none =>
    match prev with
    | none => .inl (.ready none, { prev := none, finished := false, inner := rest })
    | some p => .inl (.ready (some p), { prev := none, finished := true, inner := rest })
  | .ready (some x) =>
    match prev with
    | none => .inr { prev := some x, finished := false, inner := rest }
    | some p =>
      match f p x with
      | .ok m => .inr { prev := some m, finished := false, inner := rest }
      | .error (p', cur) =>
        .inl (.ready (some p'), { prev := some cur, finished := false, inner := rest })

theorem coStep_inr {T : Type} {f : T → T → Except (T × T) T} {prev : Option T}
    {pr : Poll (Option T)} {rest : Script T} {c2 : Coalesce T}
    (h : coStep f prev pr rest = .inr c2) :
    c2.inner = rest ∧ c2.finished = false ∧ pr ≠ .ready none := by
  cases pr with
  | pending => simp only [coStep] at h; exact Sum.noConfusion h
  | ready v =>
    cases v with
    | none =>
      cases prev <;> simp only [coStep] at h <;> exact Sum.noConfusion h
    | some x =>
      cases prev with
      | none =>
        simp only [coStep] at h
        cases h
        exact ⟨rfl, rfl, by simp⟩
      | some p =>
        simp only [coStep] at h
        cases hf : f p x with
        | ok m =>
          rw [hf] at h
          simp only at h
          cases h
          exact ⟨rfl, rfl, by simp⟩
        | error pc =>
          rw [hf] at h
          obtain ⟨p', cur⟩ := pc
          simp only at h
          exact Sum.noConfusion h

/-- From src/stream_more/coalesce/coalesce.rs: `Coalesce::poll_next`.  If
finished, end-of-sequence; otherwise loop, polling the inner producer and
dispatching with `coStep`. -/
def pollNextC {T : Type} (f : T → T → Except (T × T) T) (c : Coalesce T) :
    Poll (Option T) × Coalesce T :=
  if c.finished then (.ready none, c)
  else
    match hs : coStep f c.prev (pollScript c.inner).1 (pollScript c.inner).2 with
    | .inl r => r
    | .inr c2 => pollNextC f c2
termination_by c.inner.length
decreasing_by
  have hc := coStep_inr hs
  cases hi : c.inner with
  | nil =>
    exfalso
    rw [hi] at hs
    simp only [pollScript] at hs
    exact (coStep_inr hs).2.2 rfl
  | cons pr rest =>
    rw [hi] at hc
    simp only [pollScript] at hc
    rw [hc.1]
    simp

theorem pollNextC_eq_fin {T : Type} {f : T → T → Except (T × T) T} {c : Coalesce T}
    (h : c.finished = true) : pollNextC f c = (.ready none, c) := by
  rw [pollNextC, if_pos h]

theorem pollNextC_eq_inl {T : Type} {f : T → T → Except (T × T) T} {c : Coalesce T}
    {r : Poll (Option T) × Coalesce T} (h : c.finished = false)
    (hs : coStep f c.prev (pollScript c.inner).1 (pollScript c.inner).2 = .inl r) :
    pollNextC f c = r := by
  rw [pollNextC, if_neg (by simp [h])]
  split
  · next r' hsr => rw [hs] at hsr; injection hsr with hr; rw [hr]
  · next c2 hsr => rw [hs] at hsr; exact Sum.noConfusion hsr

theorem pollNextC_eq_inr {T : Type} {f : T → T → Except (T × T) T} {c c2 : Coalesce T}
    (h : c.finished = false)
    (hs : coStep f c.prev (pollScript c.inner).1 (pollScript c.inner).2 = .inr c2) :
    pollNextC f c = pollNextC f c2 := by
  rw [pollNextC, if_neg (by simp [h])]
  split
  · next r' hsr => rw [hs] at hsr; exact Sum.noConfusion hsr
  · next c2' hsr => rw [hs] at hsr; injection hsr with hr; rw [hr]

/-- Remaining work of a coalesce state. -/
def weightC {T : Type} (c : Coalesce T) : Nat :=
  c.inner.length + (if c.prev.isSome then 1 else 0) + (if c.finished then 0 else 1)

theorem coStep_weight_inl {T : Type} {f : T → T → Except (T × T) T} {prev : Option T}
    {pr : Poll (Option T)} {rest : Script T} {r : Poll (Option T) × Coalesce T}
    (h : coStep f prev pr rest = .inl r) (ho : r.1 ≠ .ready none) :
    weightC r.2 ≤ rest.length + (if prev.isSome then 1 else 0) + 1
      ∧ (pr = .ready none → weightC r.2 ≤ rest.length) := by
  cases pr with
  | pending =>
    simp only [coStep] at h
    cases h
    refine ⟨by simp [weightC], fun hx => Poll.noConfusion hx⟩
  | ready v =>
    cases v with
    | none =>
      cases prev with
      | none =>
        simp only [coStep] at h
        cases h
        exact absurd rfl ho
      | some p =>
        simp only [coStep] at h
        cases h
        refine ⟨by simp [weightC]; omega, fun _ => by simp [weightC]⟩
    | some x =>
      cases prev with
      | none => simp only [coStep] at h; exact Sum.noConfusion h
      | some p =>
        simp only [coStep] at h
        cases hf : f p x with
        | ok m => rw [hf] at h; simp only at h; exact Sum.noConfusion h
        | error pc =>
          rw [hf] at h
          obtain ⟨p', cur⟩ := pc
          simp only at h
          cases h
          refine ⟨by simp [weightC], fun hx => by cases hx⟩

theorem coStep_weight_inr {T : Type} {f : T → T → Except (T × T) T} {prev : Option T}
    {pr : Poll (Option T)} {rest : Script T} {c2 : Coalesce T}
    (h : coStep f prev pr rest = .inr c2) :
    weightC c2 ≤ rest.length + 2 := by
  cases pr with
  | pending => simp only [coStep] at h; exact Sum.noConfusion h
  | ready v =>
    cases v with
    | none =>
      cases prev <;> simp only [coStep] at h <;> exact Sum.noConfusion h
    | some x =>
      cases prev with
      | none =>
        simp only [coStep] at h
        cases h
        simp [weightC]
      | some p =>
        simp only [coStep] at h
        cases hf : f p x with
        | ok m =>
          rw [hf] at h
          simp only at h
          cases h
          simp [weightC]
        | error pc =>
          rw [hf] at h
          obtain ⟨p', cur⟩ := pc
          simp only at h
          exact Sum.noConfusion h

theorem pollNextC_weight {T : Type} (f : T → T → Except (T × T) T) (c : Coalesce T) :
    ∀ o c', pollNextC f c = (o, c') → o ≠ .ready none → weightC c' < weightC c := by
  induction c using pollNextC.induct f with
  | case1 c hf =>
    intro o c' he ho
    rw [pollNextC_eq_fin hf] at he
    cases he
    exact absurd rfl ho
  | case2 c hf r hs =>
    intro o c' he ho
    have hf' : c.finished = false := by simpa using hf
    rw [pollNextC_eq_inl hf' hs] at he
    subst he
    have h1 := coStep_weight_inl hs ho
    cases hi : c.inner with
    | nil =>
      rw [hi] at h1
      simp only [pollScript] at h1
      have h2 := h1.2 (by simp)
      have hc : 1 ≤ weightC c := by
        unfold weightC
        rw [hf']
        simp
      simp only [List.length_nil] at h2
      omega
    | cons pr rest =>
      rw [hi] at h1
      simp only [pollScript] at h1
      have h2 := h1.1
      have hc : weightC c = (rest.length + 1) + (if c.prev.isSome then 1 else 0) + 1 := by
        unfold weightC
        rw [hi, hf']
        simp
      rw [hc]
      omega
  | case3 c hf c2 hs ih =>
    intro o c' he ho
    have hf' : c.finished = false := by simpa using hf
    rw [pollNextC_eq_inr hf' hs] at he
    have h1 := ih o c' he ho
    have h2 := coStep_weight_inr hs
    cases hi : c.inner with
    | nil =>
      exfalso
      rw [hi] at hs
      simp only [pollScript] at hs
      exact (coStep_inr hs).2.2 rfl
    | cons pr rest =>
      rw [hi] at h2
      simp only [pollScript] at h2
      have hc : weightC c = (rest.length + 1) + (if c.prev.isSome then 1 else 0) + 1 := by
        unfold weightC
        rw [hi, hf']
        simp
      rw [hc]
      omega

/-- Drive the coalesce loop to completion, collecting every emitted item. -/
def runC {T : Type} (f : T → T → Except (T × T) T) (c : Coalesce T) : List T :=
  match hr : pollNextC f c with
  | (.ready none, _) => []
  | (.ready (some d), c') => d :: runC f c'
  | (.pending, c') => runC f c'
termination_by weightC c
decreasing_by
  · exact pollNextC_weight f c _ _ hr (by simp)
  · exact pollNextC_weight f c _ _ hr (by simp)

theorem runC_eq_none {T : Type} {f : T → T → Except (T × T) T} {c c' : Coalesce T}
    (h : pollNextC f c = (.ready none, c')) : runC f c = [] := by
  rw [runC]
  split
  · rfl
  · next d c2 hr => rw [h] at hr; cases hr
  · next c2 hr => rw [h] at hr; cases hr

theorem runC_eq_some {T : Type} {f : T → T → Except (T × T) T} {c c' : Coalesce T} {d : T}
    (h : pollNextC f c = (.ready (some d), c')) : runC f c = d :: runC f c' := by
  rw [runC]
  split
  · next c2 hr => rw [h] at hr; cases hr
  · next d' c2 hr =>
    rw [h] at hr
    injection hr with h1 h2
    injection h1 with h1'
    injection h1' with h1''
    subst h1''; subst h2
    rfl
  · next c2 hr => rw [h] at hr; cases hr

theorem runC_eq_pending {T : Type} {f : T → T → Except (T × T) T} {c c' : Coalesce T}
    (h : pollNextC f c = (.pending, c')) : runC f c = runC f c' := by
  rw [runC]
  split
  · next c2 hr => rw [h] at hr; cases hr
  · next d c2 hr => rw [h] at hr; cases hr
  · next c2 hr =>
    rw [h] at hr
    injection hr with h1 h2
    subst h2
    rfl

/-- Fuel-indexed, structurally recursive copy of the coalesce loop, used to
evaluate concrete runs by kernel reduction. -/
def pollNextCF {T : Type} (f : T → T → Except (T × T) T) :
    Nat → Coalesce T → Poll (Option T) × Coalesce T
  | 0, c => (.ready none, c)
  | fuel+1, c =>
    if c.finished then (.ready none, c)
    else
      match coStep f c.prev (pollScript c.inner).1 (pollScript c.inner).2 with
      | .inl r => r
      | .inr c2 => pollNextCF f fuel c2

theorem pollNextCF_eq {T : Type} (f : T → T → Except (T × T) T) :
    ∀ (fuel : Nat) (c : Coalesce T), c.inner.length < fuel →
    pollNextCF f fuel c = pollNextC f c := by
  intro fuel
  induction fuel with
  | zero => intro c h; exact absurd h (Nat.not_lt_zero _)
  | succ n ih =>
    intro c h
    by_cases hf : c.finished = true
    · rw [pollNextC_eq_fin hf]
      simp [pollNextCF, hf]
    · have hf' : c.finished = false := by simpa using hf
      cases hs : coStep f c.prev (pollScript c.inner).1 (pollScript c.inner).2 with
      | inl r => rw [pollNextC_eq_inl hf' hs]; simp [pollNextCF, hf', hs]
      | inr c2 =>
        rw [pollNextC_eq_inr hf' hs]
        have hc := coStep_inr hs
        cases hi : c.inner with
        | nil =>
          exfalso
          rw [hi] at hs
          simp only [pollScript] at hs
          exact (coStep_inr hs).2.2 rfl
        | cons pr rest =>
          rw [hi] at hc
          simp only [pollScript] at hc
          have hlen : c2.inner.length < n := by
            rw [hc.1]
            rw [hi] at h
            simp at h
            omega
          have hrec := ih c2 hlen
          simp [pollNextCF, hf', hs, hrec]

/-- Executable form of `pollNextC`. -/
def pollNextCE {T : Type} (f : T → T → Except (T × T) T) (c : Coalesce T) :
    Poll (Option T) × Coalesce T :=
  pollNextCF f (c.inner.length + 1) c

theorem pollNextCE_eq {T : Type} (f : T → T → Except (T × T) T) (c : Coalesce T) :
    pollNextCE f c = pollNextC f c :=
  pollNextCF_eq f _ c (by omega)

/-- Fuel-indexed, structurally recursive copy of the coalesce run, used to
evaluate concrete runs by kernel reduction. -/
def runCF {T : Type} (f : T → T → Except (T × T) T) : Nat → Coalesce T → List T
  | 0, _ => []
  | fuel+1, c =>
    match pollNextCE f c with
    | (.ready none, _) => []
    | (.ready (some d), c') => d :: runCF f fuel c'
    | (.pending, c') => runCF f fuel c'

theorem runCF_eq {T : Type} (f : T → T → Except (T × T) T) :
    ∀ (fuel : Nat) (c : Coalesce T), weightC c < fuel →
    runCF f fuel c = runC f c := by
  intro fuel
  induction fuel with
  | zero => intro c h; exact absurd h (Nat.not_lt_zero _)
  | succ n ih =>
    intro c h
    rcases hpl : pollNextC f c with ⟨o, c'⟩
    cases o with
    | pending =>
      rw [runC_eq_pending hpl]
      have hw := pollNextC_weight f c _ _ hpl (by simp)
      have hrec := ih c' (by omega)
      simp [runCF, pollNextCE_eq, hpl, hrec]
    | ready v =>
      cases v with
      | none => rw [runC_eq_none hpl]; simp [runCF, pollNextCE_eq, hpl]
      | some d =>
        rw [runC_eq_some hpl]
        have hw := pollNextC_weight f c _ _ hpl (by simp)
        have hrec := ih c' (by omega)
        simp [runCF, pollNextCE_eq, hpl, hrec]

/-- The buffered content of a lookahead cell as a list. -/
def peekedList {D : Type} : Peeked D → List D
  | .no => []
  | .yes d => [d]

/-- The items a script still yields (ignoring pending markers and anything
around end-of-sequence markers; for pure scripts this is exactly the item
list). -/
def scriptItems {D : Type} (s : Script D) : List D :=
  s.filterMap (fun p =>
    match p with
    | .ready (some d) => some d
    | _ => none)

/-- All items an entry still holds: the buffered lookahead plus its script. -/
def entryItems {D : Type} (e : HeapEntry D) : List D :=
  peekedList e.peeked ++ scriptItems e.stream

/-- All items a heap still holds. -/
def itemsL {D : Type} (l : List (HeapEntry D)) : List D :=
  (l.map entryItems).join

/-- A pure producer: every poll yields an item (the shape `ofList` creates). -/
def PureScript {D : Type} (s : Script D) : Prop :=
  ∀ p ∈ s, ∃ d, p = .ready (some d)

/-- Sortedness consistent with the comparator: an earlier item never compares
`Less` against a later adjacent one (greater is emitted first). -/
def SortedBy {D : Type} (cmp : D → D → Ordering) (l : List D) : Prop :=
  l.Chain' (fun a b => cmp a b ≠ .lt)

/-- Invariant of one merge entry during a pure merge: the script is pure and
the buffered item followed by the script items is sorted. -/
def EntryInv {D : Type} (cmp : D → D → Ordering) (e : HeapEntry D) : Prop :=
  PureScript e.stream ∧ SortedBy cmp (peekedList e.peeked ++ scriptItems e.stream)

/-- Invariant of the whole heap during a pure merge. -/
def HeapInv {D : Type} (cmp : D → D → Ordering) (l : List (HeapEntry D)) : Prop :=
  ∀ e ∈ l, EntryInv cmp e

/-- Attach one pure producer per input list, in order. -/
def mergeList {D : Type} (km : KMerge D) (ls : List (List D)) : KMerge D :=
  ls.foldl (fun m l => m.merge (ofList l)) km

/-- From src/stream_more/mod.rs (doc example of `coalesce`): sum adjacent
same-sign items, reject mixed-sign pairs unchanged. -/
def signSum : Int → Int → Except (Int × Int) Int := fun x y =>
  if x * y ≥ 0 then .ok (x + y) else .error (x, y)

theorem scriptItems_ofList {D : Type} (l : List D) : scriptItems (ofList l) = l := by
  induction l with
  | nil => rfl
  | cons x rest ih => simp [scriptItems, ofList] at ih ⊢; exact ih

theorem itemsL_append {D : Type} (l₁ l₂ : List (HeapEntry D)) :
    itemsL (l₁ ++ l₂) = itemsL l₁ ++ itemsL l₂ := by
  simp [itemsL]

theorem itemsL_cons {D : Type} (e : HeapEntry D) (l : List (HeapEntry D)) :
    itemsL (e :: l) = entryItems e ++ itemsL l := by
  simp [itemsL]

/-- Inversion of one loop iteration that returns to the caller. -/
theorem stepHeap_inl_cases {D : Type} {b a : List (HeapEntry D)} {e : HeapEntry D}
    {r : Poll (Option D) × List (HeapEntry D)} (h : stepHeap b e a = .inl r) :
    (∃ d, e.peeked = .yes d ∧ r = (.ready (some d), b ++ { e with peeked := .no } :: a))
    ∨ (e.peeked = .no ∧ (pollScript e.stream).1 = .pending
        ∧ r = (.pending, b ++ { e with stream := (pollScript e.stream).2 } :: a)) := by
  unfold stepHeap at h
  cases hp : e.peeked with
  | yes d =>
    rw [hp] at h
    injection h with h'
    exact Or.inl ⟨d, rfl, h'.symm⟩
  | no =>
    rw [hp] at h
    cases hs : (pollScript e.stream).1 with
    | pending =>
      rw [hs] at h
      injection h with h'
      exact Or.inr ⟨rfl, rfl, h'.symm⟩
    | ready v =>
      cases v with
      | none => rw [hs] at h; exact Sum.noConfusion h
      | some d => rw [hs] at h; exact Sum.noConfusion h

/-- Inversion of one loop iteration that continues the loop. -/
theorem stepHeap_inr_cases {D : Type} {b a l2 : List (HeapEntry D)} {e : HeapEntry D}
    (h : stepHeap b e a = .inr l2) :
    e.peeked = .no
    ∧ ((∃ d, (pollScript e.stream).1 = .ready (some d)
          ∧ l2 = b ++ { e with peeked := .yes d, stream := (pollScript e.stream).2 } :: a)
        ∨ ((pollScript e.stream).1 = .ready none ∧ l2 = b ++ a)) := by
  unfold stepHeap at h
  cases hp : e.peeked with
  | yes d => rw [hp] at h; exact Sum.noConfusion h
  | no =>
    rw [hp] at h
    refine ⟨rfl, ?_⟩
    cases hs : (pollScript e.stream).1 with
    | pending => rw [hs] at h; exact Sum.noConfusion h
    | ready v =>
      cases v with
      | none =>
        rw [hs] at h
        injection h with h'
        exact Or.inr ⟨rfl, h'.symm⟩
      | some d =>
        rw [hs] at h
        injection h with h'
        exact Or.inl ⟨d, rfl, h'.symm⟩

/-- If any entry still has an empty lookahead cell, the selected maximal
entry has an empty cell (empty ranks above holding); no comparator laws
needed. -/
theorem pickTop_no_mem {D : Type} (cmp : D → D → Ordering) :
    ∀ (l b : List (HeapEntry D)) (e : HeapEntry D) (a : List (HeapEntry D))
      (x : HeapEntry D),
    pickTop cmp l = some (b, e, a) → x ∈ l → x.peeked = .no → e.peeked = .no := by
  intro l
  induction l with
  | nil => intro b e a x h; simp [pickTop] at h
  | cons y rest ih =>
    intro b e a x h hx hxno
    simp only [pickTop] at h
    cases hr : pickTop cmp rest with
    | none =>
      rw [hr] at h
      injection h with h'
      injection h' with h1 h2
      injection h2 with h2a h2b
      subst h2a
      have : rest = [] := (pickTop_eq_none cmp rest).mp hr
      subst this
      simp at hx
      rw [← hx]
      exact hxno
    | some t =>
      obtain ⟨b', c', a'⟩ := t
      rw [hr] at h
      dsimp only at h
      by_cases hgt : entryCompare cmp c' y = .gt
      · rw [if_pos hgt] at h
        injection h with h'
        injection h' with h1 h2
        injection h2 with h2a h2b
        subst h2a
        rcases List.mem_cons.mp hx with hxy | hxr
        · subst hxy
          cases hc : c'.peeked with
          | no => rfl
          | yes v =>
            exfalso
            unfold entryCompare heapEntryCmp at hgt
            rw [hxno, hc] at hgt
            simp at hgt
        · exact ih b' c' a' x hr hxr hxno
      · rw [if_neg hgt] at h
        injection h with h'
        injection h' with h1 h2
        injection h2 with h2a h2b
        subst h2a
        rcases List.mem_cons.mp hx with hxy | hxr
        · subst hxy; exact hxno
        · have hc' : c'.peeked = .no := ih b' c' a' x hr hxr hxno
          cases hy : y.peeked with
          | no => rfl
          | yes v =>
            exfalso
            apply hgt
            unfold entryCompare heapEntryCmp
            rw [hc', hy]

theorem heapEntryCmp_gt_iff_lt {D : Type} {cmp : D → D → Ordering}
    (hsym : ∀ a b, cmp a b = .gt ↔ cmp b a = .lt) (p q : Peeked D) :
    heapEntryCmp cmp p q = .gt ↔ heapEntryCmp cmp q p = .lt := by
  cases p <;> cases q <;> simp [heapEntryCmp] <;> apply hsym

theorem heapEntryCmp_le_trans {D : Type} {cmp : D → D → Ordering}
    (htrans : ∀ a b c, cmp a b ≠ .gt → cmp b c ≠ .gt → cmp a c ≠ .gt)
    (p q r : Peeked D) :
    heapEntryCmp cmp p q ≠ .gt → heapEntryCmp cmp q r ≠ .gt →
    heapEntryCmp cmp p r ≠ .gt := by
  cases p <;> cases q <;> cases r <;> simp [heapEntryCmp]
  all_goals
    intro h1 h2
    exact htrans _ _ _ h1 h2

/-- The selected entry is maximal: no entry of the heap ranks strictly above
it under the entry ordering. -/
theorem pickTop_max {D : Type} {cmp : D → D → Ordering}
    (hsym : ∀ a b, cmp a b = .gt ↔ cmp b a = .lt)
    (htrans : ∀ a b c, cmp a b ≠ .gt → cmp b c ≠ .gt → cmp a c ≠ .gt) :
    ∀ (l b : List (HeapEntry D)) (e : HeapEntry D) (a : List (HeapEntry D))
      (x : HeapEntry D),
    pickTop cmp l = some (b, e, a) → x ∈ l →
    heapEntryCmp cmp x.peeked e.peeked ≠ .gt := by
  have hrefl : ∀ p : Peeked D, heapEntryCmp cmp p p ≠ .gt := by
    intro p
    cases p with
    | no => simp [heapEntryCmp]
    | yes v =>
      simp [heapEntryCmp]
      intro hg
      have := (hsym v v).mp hg
      rw [hg] at this
      exact Ordering.noConfusion this
  intro l
  induction l with
  | nil => intro b e a x h; simp [pickTop] at h
  | cons y rest ih =>
    intro b e a x h hx
    simp only [pickTop] at h
    cases hr : pickTop cmp rest with
    | none =>
      rw [hr] at h
      injection h with h'
      injection h' with h1 h2
      injection h2 with h2a h2b
      subst h2a
      have : rest = [] := (pickTop_eq_none cmp rest).mp hr
      subst this
      simp at hx
      rw [hx]
      exact hrefl _
    | some t =>
      obtain ⟨b', c', a'⟩ := t
      rw [hr] at h
      dsimp only at h
      by_cases hgt : entryCompare cmp c' y = .gt
      · rw [if_pos hgt] at h
        injection h with h'
        injection h' with h1 h2
        injection h2 with h2a h2b
        subst h2a
        rcases List.mem_cons.mp hx with hxy | hxr
        · subst hxy
          unfold entryCompare at hgt
          rw [(heapEntryCmp_gt_iff_lt hsym _ _).mp hgt]
          simp
        · exact ih b' c' a' x hr hxr
      · rw [if_neg hgt] at h
        injection h with h'
        injection h' with h1 h2
        injection h2 with h2a h2b
        subst h2a
        rcases List.mem_cons.mp hx with hxy | hxr
        · subst hxy; exact hrefl _
        · have h1 : heapEntryCmp cmp x.peeked c'.peeked ≠ .gt := ih b' c' a' x hr hxr
          have h2 : heapEntryCmp cmp c'.peeked y.peeked ≠ .gt := hgt
          exact heapEntryCmp_le_trans htrans _ _ _ h1 h2

/-- Executable form of `KMerge.poll_next`. -/
def KMerge.poll_nextE {D : Type} (km : KMerge D) : Poll (Option D) × KMerge D :=
  let r := pollNextE km.cmp km.heap
  (r.1, { km with heap := r.2 })

theorem KMerge.poll_nextE_eq {D : Type} (km : KMerge D) :
    km.poll_nextE = km.poll_next := by
  unfold KMerge.poll_nextE KMerge.poll_next
  rw [pollNextE_eq]

theorem coStep_pending_state {T : Type} {f : T → T → Except (T × T) T} {prev : Option T}
    {pr : Poll (Option T)} {rest : Script T} {r : Poll (Option T) × Coalesce T}
    (h : coStep f prev pr rest = .inl r) (hp : r.1 = .pending) :
    r.2.finished = false := by
  cases pr with
  | pending =>
    simp only [coStep] at h
    cases h
    rfl
  | ready v =>
    cases v with
    | none =>
      cases prev with
      | none => simp only [coStep] at h; cases h; cases hp
      | some p => simp only [coStep] at h; cases h; cases hp
    | some x =>
      cases prev with
      | none => simp only [coStep] at h; exact Sum.noConfusion h
      | some p =>
        simp only [coStep] at h
        cases hf : f p x with
        | ok m => rw [hf] at h; simp only at h; exact Sum.noConfusion h
        | error pc =>
          rw [hf] at h
          obtain ⟨p', cur⟩ := pc
          simp only at h
          cases h
          cases hp

theorem pollNextC_pending_finished {T : Type} (f : T → T → Except (T × T) T)
    (c : Coalesce T) : ∀ o c', pollNextC f c = (o, c') → o = .pending →
    c'.finished = c.finished := by
  induction c using pollNextC.induct f with
  | case1 c hf =>
    intro o c' he ho
    rw [pollNextC_eq_fin hf] at he
    injection he with h1 h2
    rw [ho] at h1
    exact Poll.noConfusion h1
  | case2 c hf r hs =>
    intro o c' he ho
    have hf' : c.finished = false := by simpa using hf
    rw [pollNextC_eq_inl hf' hs] at he
    subst he
    rw [hf']
    exact coStep_pending_state hs ho
  | case3 c hf c2 hs ih =>
    intro o c' he ho
    have hf' : c.finished = false := by simpa using hf
    rw [pollNextC_eq_inr hf' hs] at he
    have h1 := ih o c' he ho
    rw [h1, (coStep_inr hs).2.1, hf']

/-- The engine states of the attach-mid-merge scenario of
src/stream_more/kmerge/kmerge_tests.rs
(`test_continue_append_more_streams_after_polling`): min-order merge of
`[1,3]` and `[2,4]`. -/
def c4Start : KMerge Nat :=
  ((KMerge.by_cmp ((ascendingCmp : Nat → Nat → Ordering))).merge (ofList [1, 3])).merge (ofList [2, 4])

/-- The scenario state after the caller consumed two items. -/
def c4Mid : KMerge Nat := (c4Start.poll_next.2.poll_next).2

/-- The scenario state after attaching the extra stream `[1,5]`. -/
def c4Attached : KMerge Nat := c4Mid.merge (ofList [1, 5])

theorem c4Attached_heap :
    c4Attached.heap
      = (pollNextE ((ascendingCmp : Nat → Nat → Ordering))
          ((pollNextE ((ascendingCmp : Nat → Nat → Ordering)) c4Start.heap).2)).2
        ++ [(HeapEntry.new (ofList [1, 5])).with_id 3] := by
  rw [pollNextE_eq, pollNextE_eq]
  rfl

theorem c4_polls :
    c4Start.poll_next.1 = .ready (some 1)
    ∧ c4Start.poll_next.2.poll_next.1 = .ready (some 2) := by
  constructor
  · have h : c4Start.poll_next.1 = (pollNextE ((ascendingCmp : Nat → Nat → Ordering)) c4Start.heap).1 := by
      rw [pollNextE_eq]; rfl
    rw [h]; decide
  · have h : c4Start.poll_next.2.poll_next.1
        = (pollNextE ((ascendingCmp : Nat → Nat → Ordering))
            ((pollNextE ((ascendingCmp : Nat → Nat → Ordering)) c4Start.heap).2)).1 := by
      rw [pollNextE_eq, pollNextE_eq]; rfl
    rw [h]; decide

theorem c4_run_attached : KMerge.run c4Attached = [1, 3, 4, 5] := by
  rw [KMerge.run]
  have hcmp : c4Attached.cmp = (ascendingCmp : Nat → Nat → Ordering) := rfl
  rw [hcmp, c4Attached_heap, ← runKF_eq ((ascendingCmp : Nat → Nat → Ordering)) 20 _ (by decide)]
  decide

/-- Claim C4, counterexample: after consuming `1` and `2` from the min-order
merge of `[1,3]` and `[2,4]` and then attaching `[1,5]`, the subsequent
output is not `[3,4,5]` (it is `[1,3,4,5]`, as the repository's own test
asserts: the attached producer's `1` is smaller than everything not yet
returned, so it is emitted first). -/
theorem claim_C4_counterexample :
    c4Start.poll_next.1 = .ready (some 1)
    ∧ c4Start.poll_next.2.poll_next.1 = .ready (some 2)
    ∧ KMerge.run c4Attached ≠ [3, 4, 5] := by
  refine ⟨c4_polls.1, c4_polls.2, ?_⟩
  rw [c4_run_attached]
  decide

/-- Claim C4, amended: consuming `1` then `2` from the min-order merge of
`[1,3]` and `[2,4]`, then attaching `[1,5]`, yields the remaining merged
sequence `[1,3,4,5]` — the merged order of everything not yet returned,
including the newly attached producer's items; items already returned are
unaffected. -/
theorem claim_C4_amended :
    c4Start.poll_next.1 = .ready (some 1)
    ∧ c4Start.poll_next.2.poll_next.1 = .ready (some 2)
    ∧ KMerge.run c4Attached = [1, 3, 4, 5] :=
  ⟨c4_polls.1, c4_polls.2, c4_run_attached⟩

/-- The always-combining sum function used by the coalesce tests. -/
def addC : Nat → Nat → Except (Nat × Nat) Nat := fun x y => .ok (x + y)

/-- A coalesce state whose inner producer ends immediately and then would
yield a bogus item if polled past exhaustion. -/
def c6C : Coalesce Nat := Coalesce.new [.ready none, .ready (some 1), .ready none]

/-- Claim C6, counterexample: when the inner producer reports
end-of-sequence with no pending item, the exhausted flag is not set, and the
next `poll_next` polls the inner producer again (it even emits the
resurrected item). -/
theorem claim_C6_counterexample :
    (pollNextC addC c6C).1 = .ready none
    ∧ (pollNextC addC c6C).2.finished = false
    ∧ (pollNextC addC ((pollNextC addC c6C).2)).2.inner ≠ ((pollNextC addC c6C).2).inner
    ∧ (pollNextC addC ((pollNextC addC c6C).2)).1 = .ready (some 1) := by
  simp only [← pollNextCE_eq]
  refine ⟨by decide, by decide, by decide, by decide⟩

/-- Claim C6, amended: once the exhausted flag is set, `poll_next` answers
end-of-sequence without touching any state (so the inner producer is never
polled again); the flag is set when end-of-sequence arrives while a pending
item is present (the pending item is emitted); but when end-of-sequence
arrives with no pending item, the stream answers end-of-sequence without
setting the flag, and a later `poll_next` will poll the inner producer
again. -/
theorem claim_C6_amended :
    (∀ (T : Type) (f : T → T → Except (T × T) T) (c : Coalesce T),
        c.finished = true → pollNextC f c = (.ready none, c))
    ∧ (∀ (T : Type) (f : T → T → Except (T × T) T) (p : T) (rest : Script T),
        pollNextC f { prev := some p, finished := false, inner := .ready none :: rest }
          = (.ready (some p), { prev := none, finished := true, inner := rest }))
    ∧ (∀ (T : Type) (f : T → T → Except (T × T) T) (rest : Script T),
        pollNextC f { prev := none, finished := false, inner := .ready none :: rest }
          = (.ready none, { prev := none, finished := false, inner := rest })) := by
  refine ⟨?_, ?_, ?_⟩
  · exact fun T f c h => pollNextC_eq_fin h
  · intro T f p rest
    exact pollNextC_eq_inl rfl rfl
  · intro T f rest
    exact pollNextC_eq_inl rfl rfl

/-- Witness for the amended claim C6 at a concrete exhausted state. -/
theorem claim_C6_amended_witness :
    pollNextC addC { prev := some 9, finished := true, inner := [.ready (some 1)] }
      = (.ready none, { prev := some 9, finished := true, inner := [.ready (some 1)] }) :=
  claim_C6_amended.1 Nat addC _ rfl

/-- A merge whose second producer is not ready on its first poll, while the
first producer has already yielded an item in the same `poll_next` call. -/
def c7K : KMerge Nat :=
  ((KMerge.by_cmp ((descendingCmp : Nat → Nat → Ordering))).merge (ofList [5])).merge [.pending]

/-- A coalesce state whose producer yields an item and then is not ready. -/
def c7C : Coalesce Nat := Coalesce.new [.ready (some 5), .pending]

/-- Claim C7, counterexample: a `poll_next` that returns not-ready can leave
the engine state changed: the merge engine has filled a lookahead cell
during the same call, and the coalesce engine has absorbed an item into its
pending slot. -/
theorem claim_C7_counterexample :
    c7K.poll_next.1 = .pending
    ∧ c7K.poll_next.2.heap.map (fun e => e.peeked) ≠ c7K.heap.map (fun e => e.peeked)
    ∧ (pollNextC addC c7C).1 = .pending
    ∧ (pollNextC addC c7C).2.prev ≠ c7C.prev := by
  have h1 : c7K.poll_next.1 = (pollNextE ((descendingCmp : Nat → Nat → Ordering)) c7K.heap).1 := by
    rw [pollNextE_eq]; rfl
  have h2 : c7K.poll_next.2.heap = (pollNextE ((descendingCmp : Nat → Nat → Ordering)) c7K.heap).2 := by
    rw [pollNextE_eq]; rfl
  refine ⟨by rw [h1]; decide, by rw [h2]; decide, ?_, ?_⟩
  · rw [← pollNextCE_eq]; decide
  · rw [← pollNextCE_eq]; decide

/-- Claim C7, amended: a not-ready return emits nothing; the merge engine's
producer counter and comparator are unchanged by any `poll_next`, and the
coalesce engine's exhausted flag is unchanged by a not-ready return.  Other
state (lookahead cells, entry membership, the pending item) may have
progressed by the priming and combining steps the loop completed before the
producer reported not-ready. -/
theorem claim_C7_amended :
    (∀ (D : Type) (km : KMerge D) (o : Poll (Option D)) (km' : KMerge D),
        km.poll_next = (o, km') → km'.curr_id = km.curr_id ∧ km'.cmp = km.cmp)
    ∧ (∀ (T : Type) (f : T → T → Except (T × T) T) (c : Coalesce T)
        (o : Poll (Option T)) (c' : Coalesce T),
        pollNextC f c = (o, c') → o = .pending → c'.finished = c.finished) := by
  constructor
  · intro D km o km' he
    unfold KMerge.poll_next at he
    injection he with h1 h2
    rw [← h2]
    exact ⟨rfl, rfl⟩
  · intro T f c o c' he ho
    exact pollNextC_pending_finished f c o c' he ho

/-- Witness for the amended claim C7 at the not-ready scenarios. -/
theorem claim_C7_amended_witness :
    (c7K.poll_next.2.curr_id = c7K.curr_id ∧ c7K.poll_next.2.cmp = c7K.cmp)
    ∧ (pollNextC addC c7C).2.finished = c7C.finished :=
  ⟨claim_C7_amended.1 Nat c7K _ _ rfl,
   claim_C7_amended.2 Nat addC c7C _ _ rfl (by rw [← pollNextCE_eq]; decide)⟩

/-- Claim C8: the merge-entry comparator ranks an empty cell above a holding
one, two empty cells as equal, and two holding cells by the user comparator
on their contents; the entry-level comparator delegates to the cells. -/
theorem claim_C8 :
    ∀ (D : Type) (cmp : D → D → Ordering),
      heapEntryCmp cmp .no .no = .eq
      ∧ (∀ v : D, heapEntryCmp cmp .no (.yes v) = .gt)
      ∧ (∀ v : D, heapEntryCmp cmp (.yes v) .no = .lt)
      ∧ (∀ a b : D, heapEntryCmp cmp (.yes a) (.yes b) = cmp a b)
      ∧ (∀ l r : HeapEntry D, entryCompare cmp l r = heapEntryCmp cmp l.peeked r.peeked) :=
  fun D cmp => ⟨rfl, fun _ => rfl, fun _ => rfl, fun _ _ => rfl, fun _ _ => rfl⟩

/-- Claim C9: max-order merge of `[2,4,5]` and `[1,3,6]` yields exactly
`[2,4,5,1,3,6]`, max-order merge of `[5,4,2]` and `[6,3,1]` yields exactly
`[6,5,4,3,2,1]`, and the first input pair is indeed not individually sorted
under the max-order comparator. -/
theorem claim_C9 :
    KMerge.run (((KMerge.by_cmp ((descendingCmp : Nat → Nat → Ordering))).merge (ofList [2, 4, 5])).merge
        (ofList [1, 3, 6])) = [2, 4, 5, 1, 3, 6]
    ∧ KMerge.run (((KMerge.by_cmp ((descendingCmp : Nat → Nat → Ordering))).merge (ofList [5, 4, 2])).merge
        (ofList [6, 3, 1])) = [6, 5, 4, 3, 2, 1]
    ∧ ¬ SortedBy ((descendingCmp : Nat → Nat → Ordering)) [2, 4, 5] := by
  refine ⟨?_, ?_, ?_⟩
  · rw [KMerge.run, KMerge.merge_cmp, KMerge.merge_cmp, KMerge.by_cmp_cmp,
      ← runKF_eq ((descendingCmp : Nat → Nat → Ordering)) 20 _ (by decide)]
    decide
  · rw [KMerge.run, KMerge.merge_cmp, KMerge.merge_cmp, KMerge.by_cmp_cmp,
      ← runKF_eq ((descendingCmp : Nat → Nat → Ordering)) 20 _ (by decide)]
    decide
  · unfold SortedBy
    intro h
    exact (List.chain'_cons.mp h).1 (by decide)

/-- Claim C10: the predicate-derived comparator never answers `Equal`: it
answers `Greater` exactly when the predicate holds and `Less` otherwise, so
two items the predicate rejects both ways (an item against itself included)
compare `Less` in both argument orders; `KMerge::by` is `by_cmp` over this
wrapper. -/
theorem claim_C10 :
    ∀ (D : Type) (f : D → D → Bool) (a b : D),
      (fnCmp f a b = .gt ↔ f a b = true)
      ∧ fnCmp f a b ≠ .eq
      ∧ (f a b = false → f b a = false → fnCmp f a b = .lt ∧ fnCmp f b a = .lt)
      ∧ KMerge.byFirst f = KMerge.by_cmp (fnCmp f) := by
  intro D f a b
  refine ⟨?_, ?_, ?_, rfl⟩
  · by_cases h : f a b <;> simp [fnCmp, h]
  · by_cases h : f a b <;> simp [fnCmp, h]
  · intro h1 h2
    simp [fnCmp, h1, h2]

/-- Witness for claim C10: the strict-less predicate on `1` against itself
answers `Less` in both orders. -/
theorem claim_C10_witness :
    fnCmp (fun a b : Nat => decide (a < b)) 1 1 = .lt
    ∧ fnCmp (fun a b : Nat => decide (a < b)) 1 1 = .lt :=
  (claim_C10 Nat (fun a b : Nat => decide (a < b)) 1 1).2.2.1 (by decide) (by decide)

/-- Claim C2: each step of the coalesce loop follows the pending/producer
table of the spec — (no pending, end) answers end-of-sequence; (pending p,
end) sets the exhausted flag and emits p; (no pending, item c) stores c as
pending and continues; (pending p, item c) applies the combine function,
storing the combined value and continuing on success, and on rejection
(p', c') storing c' as pending and emitting p'.  Consequently an empty
sequence coalesces to empty output, a single item is yielded unchanged, and
the same-sign-sum example coalesces `[-1,-2,-3,3,1,0,-1]` to `[-6,4,-1]`. -/
theorem claim_C2 :
    (∀ (T : Type) (f : T → T → Except (T × T) T) (r : Script T),
        pollNextC f { prev := none, finished := false, inner := .ready none :: r }
          = (.ready none, { prev := none, finished := false, inner := r }))
    ∧ (∀ (T : Type) (f : T → T → Except (T × T) T) (p : T) (r : Script T),
        pollNextC f { prev := some p, finished := false, inner := .ready none :: r }
          = (.ready (some p), { prev := none, finished := true, inner := r }))
    ∧ (∀ (T : Type) (f : T → T → Except (T × T) T) (c : T) (r : Script T),
        pollNextC f { prev := none, finished := false, inner := .ready (some c) :: r }
          = pollNextC f { prev := some c, finished := false, inner := r })
    ∧ (∀ (T : Type) (f : T → T → Except (T × T) T) (p c m : T) (r : Script T),
        f p c = .ok m →
        pollNextC f { prev := some p, finished := false, inner := .ready (some c) :: r }
          = pollNextC f { prev := some m, finished := false, inner := r })
    ∧ (∀ (T : Type) (f : T → T → Except (T × T) T) (p c p' c' : T) (r : Script T),
        f p c = .error (p', c') →
        pollNextC f { prev := some p, finished := false, inner := .ready (some c) :: r }
          = (.ready (some p'), { prev := some c', finished := false, inner := r }))
    ∧ (∀ (T : Type) (f : T → T → Except (T × T) T),
        runC f (Coalesce.new (ofList ([] : List T))) = [])
    ∧ (∀ (T : Type) (f : T → T → Except (T × T) T) (x : T),
        runC f (Coalesce.new (ofList [x])) = [x])
    ∧ runC signSum (Coalesce.new (ofList ([-1, -2, -3, 3, 1, 0, -1] : List Int)))
        = [-6, 4, -1] := by
  refine ⟨?_, ?_, ?_, ?_, ?_, ?_, ?_, ?_⟩
  · intro T f r
    exact pollNextC_eq_inl rfl rfl
  · intro T f p r
    exact pollNextC_eq_inl rfl rfl
  · intro T f c r
    exact pollNextC_eq_inr rfl rfl
  · intro T f p c m r hf
    exact pollNextC_eq_inr rfl (by simp [coStep, pollScript, hf])
  · intro T f p c p' c' r hf
    exact pollNextC_eq_inl rfl (by simp [coStep, pollScript, hf])
  · intro T f
    exact runC_eq_none (pollNextC_eq_inl rfl rfl)
  · intro T f x
    have h1 : pollNextC f (Coalesce.new (ofList [x]))
        = pollNextC f { prev := some x, finished := false, inner := [] } :=
      pollNextC_eq_inr rfl rfl
    have h2 : pollNextC f { prev := some x, finished := false, inner := ([] : Script T) }
        = (.ready (some x), { prev := none, finished := true, inner := [] }) :=
      pollNextC_eq_inl rfl rfl
    rw [runC_eq_some (h1.trans h2), runC_eq_none (pollNextC_eq_fin rfl)]
  · rw [← runCF_eq signSum 20 _ (by decide)]
    decide

/-- Witness for claim C2: the rejection step at the concrete pair the spec
example hits first (`-6` then `3`, different signs). -/
theorem claim_C2_witness :
    pollNextC signSum
        { prev := some (-6), finished := false, inner := [.ready (some 3)] }
      = (.ready (some (-6)), { prev := some 3, finished := false, inner := [] }) :=
  claim_C2.2.2.2.2.1 Int signSum (-6) 3 (-6) 3 [] (by rfl)

theorem trace_refl {D : Type} (e : HeapEntry D) :
    e.id = e.id ∧ ∃ pre, e.stream = pre ++ e.stream ∧ ∀ p ∈ pre, p ≠ .ready none :=
  ⟨rfl, [], rfl, by simp⟩

theorem trace_comp {D : Type} {e' e₁ e : HeapEntry D}
    (h1 : e'.id = e₁.id ∧ ∃ pre, e₁.stream = pre ++ e'.stream ∧ ∀ p ∈ pre, p ≠ .ready none)
    (h2 : e₁.id = e.id ∧ ∃ pre, e.stream = pre ++ e₁.stream ∧ ∀ p ∈ pre, p ≠ .ready none) :
    e'.id = e.id ∧ ∃ pre, e.stream = pre ++ e'.stream ∧ ∀ p ∈ pre, p ≠ .ready none := by
  obtain ⟨hid1, pre1, hs1, hd1⟩ := h1
  obtain ⟨hid2, pre2, hs2, hd2⟩ := h2
  refine ⟨hid1.trans hid2, pre2 ++ pre1, ?_, ?_⟩
  · rw [hs2, hs1, List.append_assoc]
  · intro p hp
    rcases List.mem_append.mp hp with h | h
    · exact hd2 p h
    · exact hd1 p h

/-- Every entry surviving one `poll_next` call descends from an entry of the
input heap by consuming a done-free prefix of its script. -/
theorem pollNextL_trace {D : Type} (cmp : D → D → Ordering) (l : List (HeapEntry D)) :
    ∀ o l', pollNextL cmp l = (o, l') →
    ∀ e' ∈ l', ∃ e ∈ l, e'.id = e.id
      ∧ ∃ pre, e.stream = pre ++ e'.stream ∧ ∀ p ∈ pre, p ≠ .ready none := by
  induction l using pollNextL.induct cmp with
  | case1 l h =>
    intro o l' he e' he'
    rw [pollNextL_eq_none h] at he
    injection he with h1 h2
    subst h2
    exact ⟨e', he', trace_refl e'⟩
  | case2 l b e a h r hs =>
    intro o l' he e' he'
    rw [pollNextL_eq_inl h hs] at he
    have hl2 : l' = r.2 := by rw [he]
    have hl := pickTop_split cmp l b e a h
    rcases stepHeap_inl_cases hs with ⟨d, hp, hr⟩ | ⟨hp, hpend, hr⟩
    · rw [hl2, hr] at he'
      rcases List.mem_append.mp he' with hb | hca
      · exact ⟨e', by rw [hl]; exact List.mem_append.mpr (Or.inl hb), trace_refl e'⟩
      · rcases List.mem_cons.mp hca with hx | ha
        · refine ⟨e, by rw [hl]; simp, ?_⟩
          subst hx
          exact ⟨rfl, [], rfl, by simp⟩
        · exact ⟨e', by rw [hl]; simp [ha], trace_refl e'⟩
    · rw [hl2, hr] at he'
      rcases List.mem_append.mp he' with hb | hca
      · exact ⟨e', by rw [hl]; exact List.mem_append.mpr (Or.inl hb), trace_refl e'⟩
      · rcases List.mem_cons.mp hca with hx | ha
        · refine ⟨e, by rw [hl]; simp, ?_⟩
          subst hx
          cases hst : e.stream with
          | nil => rw [hst] at hpend; simp [pollScript] at hpend
          | cons p₀ rest =>
            rw [hst] at hpend
            simp only [pollScript] at hpend
            refine ⟨rfl, [p₀], ?_, ?_⟩
            · simp [hst, pollScript]
            · intro p hpm
              simp at hpm
              rw [hpm, hpend]
              simp
        · exact ⟨e', by rw [hl]; simp [ha], trace_refl e'⟩
  | case3 l b e a h l2 hs ih =>
    intro o l' he e' he'
    rw [pollNextL_eq_inr h hs] at he
    obtain ⟨e₁, he₁, ht⟩ := ih o l' he e' he'
    have hl := pickTop_split cmp l b e a h
    rcases stepHeap_inr_cases hs with ⟨hp, ⟨d, hsd, hr⟩ | ⟨hsn, hr⟩⟩
    · rw [hr] at he₁
      rcases List.mem_append.mp he₁ with hb | hca
      · exact ⟨e₁, by rw [hl]; exact List.mem_append.mpr (Or.inl hb), ht⟩
      · rcases List.mem_cons.mp hca with hx | ha
        · refine ⟨e, by rw [hl]; simp, trace_comp ht ?_⟩
          subst hx
          cases hst : e.stream with
          | nil => rw [hst] at hsd; simp [pollScript] at hsd
          | cons p₀ rest =>
            rw [hst] at hsd
            simp only [pollScript] at hsd
            refine ⟨rfl, [p₀], ?_, ?_⟩
            · simp [hst, pollScript]
            · intro p hpm
              simp at hpm
              rw [hpm, hsd]
              simp
        · exact ⟨e₁, by rw [hl]; simp [ha], ht⟩
    · rw [hr] at he₁
      rcases List.mem_append.mp he₁ with hb | ha
      · exact ⟨e₁, by rw [hl]; exact List.mem_append.mpr (Or.inl hb), ht⟩
      · exact ⟨e₁, by rw [hl]; simp [ha], ht⟩

/-- Claim C5: once a producer reports end-of-sequence its entry leaves the
heap permanently — every entry surviving a `poll_next` call has consumed
only a done-free prefix of its script (so a consumed end-of-sequence marker
never leaves a survivor, and the items scripted after it are unreachable);
concretely, merging a producer scripted `[item 4, end, item 1]` (which would
yield a bogus `1` if polled past exhaustion) with `[3,1]` under max-order
yields `[4,3,1]`: the bogus item is never produced. -/
theorem claim_C5 :
    (∀ (D : Type) (cmp : D → D → Ordering) (l : List (HeapEntry D))
        (o : Poll (Option D)) (l' : List (HeapEntry D)),
      pollNextL cmp l = (o, l') →
      ∀ e' ∈ l', ∃ e ∈ l, e'.id = e.id
        ∧ ∃ pre, e.stream = pre ++ e'.stream ∧ ∀ p ∈ pre, p ≠ .ready none)
    ∧ KMerge.run (((KMerge.by_cmp ((descendingCmp : Nat → Nat → Ordering))).merge
        [.ready (some 4), .ready none, .ready (some 1)]).merge (ofList [3, 1]))
      = [4, 3, 1] := by
  constructor
  · exact fun D cmp l o l' => pollNextL_trace cmp l o l'
  · rw [KMerge.run, KMerge.merge_cmp, KMerge.merge_cmp, KMerge.by_cmp_cmp,
      ← runKF_eq ((descendingCmp : Nat → Nat → Ordering)) 20 _ (by decide)]
    decide

/-- Witness for claim C5: one call that primes and then emits from a
singleton heap; the surviving entry descends from the original by consuming
the single item poll, which is not an end-of-sequence marker. -/
theorem claim_C5_witness :
    ∃ e ∈ [({ peeked := .no, stream := [.ready (some 7)], id := "1" } : HeapEntry Nat)],
      ({ peeked := .no, stream := [], id := "1" } : HeapEntry Nat).id = e.id
      ∧ ∃ pre, e.stream = pre ++ ({ peeked := .no, stream := [], id := "1" } : HeapEntry Nat).stream
          ∧ ∀ p ∈ pre, p ≠ .ready none :=
  claim_C5.1 Nat (fun a b => compare a b)
    [{ peeked := .no, stream := [.ready (some 7)], id := "1" }]
    (.ready (some 7)) [{ peeked := .no, stream := [], id := "1" }]
    (by rw [← pollNextE_eq]; decide)
    _ (by simp)

/-- The priming steps the merge loop performs before an emission: fill a
maximal empty-celled entry from its producer, or remove a maximal
empty-celled entry whose producer ended. -/
inductive Primes {D : Type} (cmp : D → D → Ordering) :
    List (HeapEntry D) → List (HeapEntry D) → Prop where
  | refl (l : List (HeapEntry D)) : Primes cmp l l
  | fill {l₂ b a : List (HeapEntry D)} {e : HeapEntry D} {d : D}
      (l : List (HeapEntry D)) :
      pickTop cmp l = some (b, e, a) → e.peeked = .no →
      (pollScript e.stream).1 = .ready (some d) →
      Primes cmp (b ++ { e with peeked := .yes d, stream := (pollScript e.stream).2 } :: a) l₂ →
      Primes cmp l l₂
  | pop {l₂ b a : List (HeapEntry D)} {e : HeapEntry D} (l : List (HeapEntry D)) :
      pickTop cmp l = some (b, e, a) → e.peeked = .no →
      (pollScript e.stream).1 = .ready none →
      Primes cmp (b ++ a) l₂ →
      Primes cmp l l₂

/-- Claim C3: whenever `poll_next` emits an item, the emission happens at a
state reached from the polled state by priming steps alone, in which every
entry of the priority structure holds a peeked value; the item is taken from
the maximal entry's lookahead cell, which is reset, and nothing else
changes. -/
theorem claim_C3 :
    ∀ (D : Type) (cmp : D → D → Ordering) (l l' : List (HeapEntry D)) (d : D),
      pollNextL cmp l = (.ready (some d), l') →
      ∃ (t b a : List (HeapEntry D)) (e : HeapEntry D), Primes cmp l t
        ∧ pickTop cmp t = some (b, e, a)
        ∧ (∀ x ∈ t, x.peeked.has_peeked = true)
        ∧ e.peeked = .yes d
        ∧ l' = b ++ { e with peeked := .no } :: a := by
  intro D cmp l
  induction l using pollNextL.induct cmp with
  | case1 l h =>
    intro l' d he
    rw [pollNextL_eq_none h] at he
    injection he with h1 h2
    injection h1 with h1'
    exact Option.noConfusion h1'
  | case2 l b e a h r hs =>
    intro l' d he
    rw [pollNextL_eq_inl h hs] at he
    rcases stepHeap_inl_cases hs with ⟨d₀, hp, hr⟩ | ⟨hp, hpend, hr⟩
    · rw [hr] at he
      injection he with h1 h2
      injection h1 with h1'
      injection h1' with h1''
      subst h1''
      refine ⟨l, b, a, e, Primes.refl l, h, ?_, hp, h2.symm⟩
      intro x hx
      cases hxp : x.peeked with
      | yes v => rfl
      | no =>
        exfalso
        have := pickTop_no_mem cmp l b e a x h hx hxp
        rw [hp] at this
        exact Peeked.noConfusion this
    · rw [hr] at he
      injection he with h1 h2
      exact Poll.noConfusion h1
  | case3 l b e a h l2 hs ih =>
    intro l' d he
    rw [pollNextL_eq_inr h hs] at he
    obtain ⟨t, b', a', e', hprimes, hpick, hall, hpk, hl'⟩ := ih l' d he
    rcases stepHeap_inr_cases hs with ⟨hp, ⟨d₀, hsd, hr⟩ | ⟨hsn, hr⟩⟩
    · subst hr
      exact ⟨t, b', a', e', Primes.fill l h hp hsd hprimes, hpick, hall, hpk, hl'⟩
    · subst hr
      exact ⟨t, b', a', e', Primes.pop l h hp hsn hprimes, hpick, hall, hpk, hl'⟩

/-- Witness for claim C3: an emission from a concrete two-entry heap whose
cells are both primed. -/
theorem claim_C3_witness :
    ∃ (t b a : List (HeapEntry Nat)) (e : HeapEntry Nat),
      Primes (fun a b : Nat => compare a b)
        [{ peeked := .yes 5, stream := [], id := "1" },
         { peeked := .yes 2, stream := [.ready (some 1)], id := "2" }] t
      ∧ pickTop (fun a b : Nat => compare a b) t = some (b, e, a)
      ∧ (∀ x ∈ t, x.peeked.has_peeked = true)
      ∧ e.peeked = .yes 5
      ∧ [{ peeked := .no, stream := [], id := "1" },
         { peeked := .yes 2, stream := [.ready (some 1)], id := "2" }]
          = b ++ { e with peeked := .no } :: a :=
  claim_C3 Nat (fun a b : Nat => compare a b)
    [{ peeked := .yes 5, stream := [], id := "1" },
     { peeked := .yes 2, stream := [.ready (some 1)], id := "2" }]
    [{ peeked := .no, stream := [], id := "1" },
     { peeked := .yes 2, stream := [.ready (some 1)], id := "2" }]
    5 (by rw [← pollNextE_eq]; decide)

theorem ge_trans {D : Type} {cmp : D → D → Ordering}
    (hsym : ∀ a b, cmp a b = .gt ↔ cmp b a = .lt)
    (htrans : ∀ a b c, cmp a b ≠ .gt → cmp b c ≠ .gt → cmp a c ≠ .gt)
    {a b c : D} (h1 : cmp a b ≠ .lt) (h2 : cmp b c ≠ .lt) : cmp a c ≠ .lt := by
  intro hac
  have hca : cmp c a = .gt := (hsym c a).mpr hac
  have hba : cmp b a ≠ .gt := fun hg => h1 ((hsym b a).mp hg)
  have hcb : cmp c b ≠ .gt := fun hg => h2 ((hsym c b).mp hg)
  exact htrans c b a hcb hba hca

theorem chain'_head_ge {D : Type} {cmp : D → D → Ordering}
    (hsym : ∀ a b, cmp a b = .gt ↔ cmp b a = .lt)
    (htrans : ∀ a b c, cmp a b ≠ .gt → cmp b c ≠ .gt → cmp a c ≠ .gt) :
    ∀ (s : List D) (d : D), List.Chain' (fun a b => cmp a b ≠ .lt) (d :: s) →
    ∀ x ∈ s, cmp d x ≠ .lt := by
  intro s
  induction s with
  | nil => intro d _ x hx; simp at hx
  | cons y rest ih =>
    intro d h x hx
    have h1 := (List.chain'_cons.mp h).1
    have h2 := (List.chain'_cons.mp h).2
    rcases List.mem_cons.mp hx with hxy | hxr
    · subst hxy; exact h1
    · exact ge_trans hsym htrans h1 (ih y h2 x hxr)

theorem pure_poll_pending {D : Type} {st : Script D} (hp : PureScript st) :
    (pollScript st).1 ≠ .pending := by
  cases st with
  | nil => simp [pollScript]
  | cons p rest =>
    obtain ⟨d, hd⟩ := hp p (by simp)
    simp [pollScript, hd]

theorem pure_poll_none {D : Type} {st : Script D} (hp : PureScript st)
    (h : (pollScript st).1 = .ready none) : st = [] := by
  cases st with
  | nil => rfl
  | cons p rest =>
    obtain ⟨d, hd⟩ := hp p (by simp)
    simp [pollScript, hd] at h

theorem pure_poll_some {D : Type} {st : Script D} {d : D} (hp : PureScript st)
    (h : (pollScript st).1 = .ready (some d)) :
    PureScript (pollScript st).2
    ∧ scriptItems st = d :: scriptItems (pollScript st).2 := by
  cases st with
  | nil => simp [pollScript] at h
  | cons p rest =>
    simp only [pollScript] at h ⊢
    constructor
    · intro q hq
      exact hp q (by simp [hq])
    · rw [h] at hp ⊢
      simp [scriptItems]

theorem mem_itemsL {D : Type} {x : D} {m : List (HeapEntry D)} :
    x ∈ itemsL m ↔ ∃ y ∈ m, x ∈ entryItems y := by
  constructor
  · intro hx
    obtain ⟨sub, hsub, hxs⟩ := List.mem_join.mp hx
    obtain ⟨y, hy, hEq⟩ := List.mem_map.mp hsub
    exact ⟨y, hy, by rw [hEq]; exact hxs⟩
  · intro ⟨y, hy, hx⟩
    exact List.mem_join.mpr ⟨entryItems y, List.mem_map_of_mem _ hy, hx⟩

theorem entryInv_fill {D : Type} {cmp : D → D → Ordering} {e : HeapEntry D} {d : D}
    (hinv : EntryInv cmp e) (hp : e.peeked = .no)
    (hs : (pollScript e.stream).1 = .ready (some d)) :
    EntryInv cmp { e with peeked := .yes d, stream := (pollScript e.stream).2 }
    ∧ entryItems { e with peeked := .yes d, stream := (pollScript e.stream).2 }
        = entryItems e := by
  obtain ⟨hpure, hchain⟩ := hinv
  obtain ⟨hpure', hitems⟩ := pure_poll_some hpure hs
  have hlist : peekedList (Peeked.yes d) ++ scriptItems (pollScript e.stream).2
      = peekedList e.peeked ++ scriptItems e.stream := by
    rw [hp, hitems]
    simp [peekedList]
  constructor
  · refine ⟨hpure', ?_⟩
    unfold SortedBy
    rw [show ({ e with peeked := .yes d, stream := (pollScript e.stream).2 } : HeapEntry D).peeked
        = Peeked.yes d from rfl]
    rw [show ({ e with peeked := .yes d, stream := (pollScript e.stream).2 } : HeapEntry D).stream
        = (pollScript e.stream).2 from rfl]
    rw [hlist]
    exact hchain
  · unfold entryItems
    rw [show ({ e with peeked := .yes d, stream := (pollScript e.stream).2 } : HeapEntry D).peeked
        = Peeked.yes d from rfl]
    rw [show ({ e with peeked := .yes d, stream := (pollScript e.stream).2 } : HeapEntry D).stream
        = (pollScript e.stream).2 from rfl]
    exact hlist

theorem entryInv_pop {D : Type} {cmp : D → D → Ordering} {e : HeapEntry D}
    (hinv : EntryInv cmp e) (hp : e.peeked = .no)
    (hs : (pollScript e.stream).1 = .ready none) :
    entryItems e = [] := by
  have hnil := pure_poll_none hinv.1 hs
  unfold entryItems
  rw [hp, hnil]
  simp [peekedList, scriptItems]

theorem step_inr_preserve {D : Type} {cmp : D → D → Ordering}
    {l b a l2 : List (HeapEntry D)} {e : HeapEntry D}
    (h : pickTop cmp l = some (b, e, a)) (hs : stepHeap b e a = .inr l2)
    (hinv : HeapInv cmp l) : HeapInv cmp l2 ∧ itemsL l2 = itemsL l := by
  have hl := pickTop_split cmp l b e a h
  have hinvE : EntryInv cmp e := hinv e (by rw [hl]; simp)
  have hmem : ∀ x, x ∈ b ∨ x ∈ a → x ∈ l := by
    intro x hx
    rw [hl]
    rcases hx with hx | hx
    · exact List.mem_append.mpr (Or.inl hx)
    · exact List.mem_append.mpr (Or.inr (List.mem_cons.mpr (Or.inr hx)))
  rcases stepHeap_inr_cases hs with ⟨hp, ⟨d, hsd, hr⟩ | ⟨hsn, hr⟩⟩
  · obtain ⟨hinv2, hitems⟩ := entryInv_fill hinvE hp hsd
    subst hr
    constructor
    · intro x hx
      rcases List.mem_append.mp hx with hb | hca
      · exact hinv x (hmem x (Or.inl hb))
      · rcases List.mem_cons.mp hca with hxe | ha
        · rw [hxe]; exact hinv2
        · exact hinv x (hmem x (Or.inr ha))
    · rw [hl, itemsL_append, itemsL_append, itemsL_cons, itemsL_cons, hitems]
  · have hnil := entryInv_pop hinvE hp hsn
    subst hr
    constructor
    · intro x hx
      rcases List.mem_append.mp hx with hb | ha
      · exact hinv x (hmem x (Or.inl hb))
      · exact hinv x (hmem x (Or.inr ha))
    · rw [hl, itemsL_append, itemsL_append, itemsL_cons, hnil]
      simp

theorem pollNextL_no_pending {D : Type} {cmp : D → D → Ordering} (l : List (HeapEntry D)) :
    HeapInv cmp l → ∀ l', pollNextL cmp l ≠ (.pending, l') := by
  induction l using pollNextL.induct cmp with
  | case1 l h =>
    intro hinv l' he
    rw [pollNextL_eq_none h] at he
    injection he with h1 h2
    exact Poll.noConfusion h1
  | case2 l b e a h r hs =>
    intro hinv l' he
    rw [pollNextL_eq_inl h hs] at he
    rcases stepHeap_inl_cases hs with ⟨d, hp, hr⟩ | ⟨hp, hpend, hr⟩
    · rw [hr] at he
      injection he with h1 h2
      exact Poll.noConfusion h1
    · have hl := pickTop_split cmp l b e a h
      have hinvE : EntryInv cmp e := hinv e (by rw [hl]; simp)
      exact pure_poll_pending hinvE.1 hpend
  | case3 l b e a h l2 hs ih =>
    intro hinv l' he
    rw [pollNextL_eq_inr h hs] at he
    exact ih (step_inr_preserve h hs hinv).1 l' he

theorem pollNextL_none_items {D : Type} {cmp : D → D → Ordering} (l : List (HeapEntry D)) :
    HeapInv cmp l → ∀ l', pollNextL cmp l = (.ready none, l') → itemsL l = [] := by
  induction l using pollNextL.induct cmp with
  | case1 l h =>
    intro hinv l' he
    rw [(pickTop_eq_none cmp l).mp h]
    simp [itemsL]
  | case2 l b e a h r hs =>
    intro hinv l' he
    rw [pollNextL_eq_inl h hs] at he
    rcases stepHeap_inl_cases hs with ⟨d, hp, hr⟩ | ⟨hp, hpend, hr⟩
    · rw [hr] at he
      injection he with h1 h2
      injection h1 with h1'
      exact Option.noConfusion h1'
    · rw [hr] at he
      injection he with h1 h2
      exact Poll.noConfusion h1
  | case3 l b e a h l2 hs ih =>
    intro hinv l' he
    rw [pollNextL_eq_inr h hs] at he
    obtain ⟨hinv2, hitems⟩ := step_inr_preserve h hs hinv
    rw [← hitems]
    exact ih hinv2 l' he

theorem pollNextL_emit {D : Type} {cmp : D → D → Ordering}
    (hsym : ∀ a b, cmp a b = .gt ↔ cmp b a = .lt)
    (htrans : ∀ a b c, cmp a b ≠ .gt → cmp b c ≠ .gt → cmp a c ≠ .gt)
    (l : List (HeapEntry D)) :
    HeapInv cmp l → ∀ d l', pollNextL cmp l = (.ready (some d), l') →
    HeapInv cmp l' ∧ (itemsL l).Perm (d :: itemsL l')
    ∧ (∀ x ∈ itemsL l', cmp d x ≠ .lt) := by
  induction l using pollNextL.induct cmp with
  | case1 l h =>
    intro hinv d l' he
    rw [pollNextL_eq_none h] at he
    injection he with h1 h2
    injection h1 with h1'
    exact Option.noConfusion h1'
  | case2 l b e a h r hs =>
    intro hinv d l' he
    rw [pollNextL_eq_inl h hs] at he
    rcases stepHeap_inl_cases hs with ⟨d₀, hp, hr⟩ | ⟨hp, hpend, hr⟩
    swap
    · rw [hr] at he
      injection he with h1 h2
      exact Poll.noConfusion h1
    rw [hr] at he
    injection he with h1 h2
    injection h1 with h1'
    injection h1' with h1''
    subst h1''
    subst h2
    have hl := pickTop_split cmp l b e a h
    have hinvE : EntryInv cmp e := hinv e (by rw [hl]; simp)
    have hmem : ∀ x, x ∈ b ∨ x ∈ a → x ∈ l := by
      intro x hx
      rw [hl]
      rcases hx with hx | hx
      · exact List.mem_append.mpr (Or.inl hx)
      · exact List.mem_append.mpr (Or.inr (List.mem_cons.mpr (Or.inr hx)))
    have hch : List.Chain' (fun a b => cmp a b ≠ .lt) (d₀ :: scriptItems e.stream) := by
      have hc := hinvE.2
      unfold SortedBy at hc
      rw [hp] at hc
      simpa [peekedList] using hc
    have hitems_e : entryItems e = d₀ :: scriptItems e.stream := by
      unfold entryItems
      rw [hp]
      simp [peekedList]
    have hitems_e' : entryItems { e with peeked := Peeked.no } = scriptItems e.stream := by
      unfold entryItems
      simp [peekedList]
    refine ⟨?_, ?_, ?_⟩
    · intro x hx
      rcases List.mem_append.mp hx with hb | hca
      · exact hinv x (hmem x (Or.inl hb))
      · rcases List.mem_cons.mp hca with hxe | ha
        · rw [hxe]
          refine ⟨hinvE.1, ?_⟩
          unfold SortedBy
          simp only [peekedList]
          rw [List.nil_append]
          exact hch.tail
        · exact hinv x (hmem x (Or.inr ha))
    · rw [hl, itemsL_append, itemsL_cons, itemsL_append, itemsL_cons,
        hitems_e, hitems_e']
      have hmid := @List.perm_middle D d₀ (itemsL b) (scriptItems e.stream ++ itemsL a)
      simpa using hmid
    · intro x hx
      obtain ⟨y, hy, hxy⟩ := mem_itemsL.mp hx
      rcases List.mem_append.mp hy with hb | hca
      · have hyl : y ∈ l := hmem y (Or.inl hb)
        have hyyes : ∀ v, y.peeked = .yes v → cmp d₀ x ≠ .lt := by
          intro v hyv
          have hmax := pickTop_max hsym htrans l b e a y h hyl
          rw [hyv, hp] at hmax
          have hdv : cmp d₀ v ≠ .lt := fun hlt => hmax ((hsym v d₀).mpr hlt)
          have hchy : List.Chain' (fun a b => cmp a b ≠ .lt)
              (v :: scriptItems y.stream) := by
            have hc := (hinv y hyl).2
            unfold SortedBy at hc
            rw [hyv] at hc
            simpa [peekedList] using hc
          unfold entryItems at hxy
          rw [hyv] at hxy
          simp only [peekedList] at hxy
          rcases List.mem_cons.mp hxy with hxv | hxs
          · rw [hxv]; exact hdv
          · exact ge_trans hsym htrans hdv
              (chain'_head_ge hsym htrans _ v hchy x hxs)
        cases hyy : y.peeked with
        | no =>
          exfalso
          have := pickTop_no_mem cmp l b e a y h hyl hyy
          rw [hp] at this
          exact Peeked.noConfusion this
        | yes v => exact hyyes v hyy
      · rcases List.mem_cons.mp hca with hxe | ha
        · rw [hxe] at hxy
          rw [hitems_e'] at hxy
          exact chain'_head_ge hsym htrans _ d₀ hch x hxy
        · have hyl : y ∈ l := hmem y (Or.inr ha)
          have hyyes : ∀ v, y.peeked = .yes v → cmp d₀ x ≠ .lt := by
            intro v hyv
            have hmax := pickTop_max hsym htrans l b e a y h hyl
            rw [hyv, hp] at hmax
            have hdv : cmp d₀ v ≠ .lt := fun hlt => hmax ((hsym v d₀).mpr hlt)
            have hchy : List.Chain' (fun a b => cmp a b ≠ .lt)
                (v :: scriptItems y.stream) := by
              have hc := (hinv y hyl).2
              unfold SortedBy at hc
              rw [hyv] at hc
              simpa [peekedList] using hc
            unfold entryItems at hxy
            rw [hyv] at hxy
            simp only [peekedList] at hxy
            rcases List.mem_cons.mp hxy with hxv | hxs
            · rw [hxv]; exact hdv
            · exact ge_trans hsym htrans hdv
                (chain'_head_ge hsym htrans _ v hchy x hxs)
          cases hyy : y.peeked with
          | no =>
            exfalso
            have := pickTop_no_mem cmp l b e a y h hyl hyy
            rw [hp] at this
            exact Peeked.noConfusion this
          | yes v => exact hyyes v hyy
  | case3 l b e a h l2 hs ih =>
    intro hinv d l' he
    rw [pollNextL_eq_inr h hs] at he
    obtain ⟨hinv2, hitems⟩ := step_inr_preserve h hs hinv
    obtain ⟨hinv', hperm, hdom⟩ := ih hinv2 d l' he
    exact ⟨hinv', hitems ▸ hperm, hdom⟩

theorem runK_spec {D : Type} {cmp : D → D → Ordering}
    (hsym : ∀ a b, cmp a b = .gt ↔ cmp b a = .lt)
    (htrans : ∀ a b c, cmp a b ≠ .gt → cmp b c ≠ .gt → cmp a c ≠ .gt) :
    ∀ (n : Nat) (l : List (HeapEntry D)), weightL l ≤ n → HeapInv cmp l →
    (runK cmp l).Perm (itemsL l)
    ∧ (runK cmp l).Pairwise (fun a b => cmp a b ≠ .lt) := by
  intro n
  induction n with
  | zero =>
    intro l hw hinv
    rcases hpl : pollNextL cmp l with ⟨o, l'⟩
    cases o with
    | pending => exact absurd hpl (pollNextL_no_pending l hinv l')
    | ready v =>
      cases v with
      | none =>
        rw [runK_eq_none hpl, pollNextL_none_items l hinv l' hpl]
        exact ⟨List.Perm.refl [], List.Pairwise.nil⟩
      | some d =>
        exfalso
        have := pollNextL_weight cmp l _ _ hpl (by simp)
        omega
  | succ n ih =>
    intro l hw hinv
    rcases hpl : pollNextL cmp l with ⟨o, l'⟩
    cases o with
    | pending => exact absurd hpl (pollNextL_no_pending l hinv l')
    | ready v =>
      cases v with
      | none =>
        rw [runK_eq_none hpl, pollNextL_none_items l hinv l' hpl]
        exact ⟨List.Perm.refl [], List.Pairwise.nil⟩
      | some d =>
        rw [runK_eq_some hpl]
        obtain ⟨hinv', hperm, hdom⟩ := pollNextL_emit hsym htrans l hinv d l' hpl
        have hwlt := pollNextL_weight cmp l _ _ hpl (by simp)
        obtain ⟨ihperm, ihpair⟩ := ih l' (by omega) hinv'
        constructor
        · exact (ihperm.cons d).trans hperm.symm
        · refine List.Pairwise.cons ?_ ihpair
          intro x hxr
          exact hdom x (ihperm.mem_iff.mp hxr)

theorem mergeList_cmp {D : Type} (ls : List (List D)) (km : KMerge D) :
    (mergeList km ls).cmp = km.cmp := by
  induction ls generalizing km with
  | nil => rfl
  | cons l ls ih =>
    show (mergeList (km.merge (ofList l)) ls).cmp = km.cmp
    rw [ih]
    rfl

theorem mergeList_heap_mem {D : Type} (ls : List (List D)) (km : KMerge D)
    (e : HeapEntry D) : e ∈ (mergeList km ls).heap →
    e ∈ km.heap ∨ ∃ l ∈ ls, e.peeked = .no ∧ e.stream = ofList l := by
  induction ls generalizing km with
  | nil => intro h; exact Or.inl h
  | cons l ls ih =>
    intro h
    rcases ih (km.merge (ofList l)) h with h0 | ⟨l', hl', hx⟩
    · rcases List.mem_append.mp h0 with hk | hn
      · exact Or.inl hk
      · rcases List.mem_cons.mp hn with he | habs
        · exact Or.inr ⟨l, by simp, by rw [he]; exact ⟨rfl, rfl⟩⟩
        · simp at habs
    · exact Or.inr ⟨l', by simp [hl'], hx⟩

theorem mergeList_items {D : Type} (ls : List (List D)) (km : KMerge D) :
    itemsL (mergeList km ls).heap = itemsL km.heap ++ ls.join := by
  induction ls generalizing km with
  | nil => simp [mergeList]
  | cons l ls ih =>
    show itemsL (mergeList (km.merge (ofList l)) ls).heap = _
    rw [ih]
    have hmerge : itemsL (km.merge (ofList l)).heap = itemsL km.heap ++ l := by
      show itemsL (km.heap ++ [(HeapEntry.new (ofList l)).with_id (km.curr_id + 1)]) = _
      rw [itemsL_append, itemsL_cons]
      simp [itemsL, entryItems, HeapEntry.new, HeapEntry.with_id, peekedList,
        scriptItems_ofList]
    rw [hmerge, List.append_assoc]
    simp

theorem pollNextL_single_no_nil {D : Type} (cmp : D → D → Ordering) (i : String) :
    pollNextL cmp [{ peeked := .no, stream := ofList ([] : List D), id := i }]
      = (.ready none, []) := by
  have hpk : pickTop cmp [({ peeked := .no, stream := ofList ([] : List D), id := i } : HeapEntry D)]
      = some ([], { peeked := .no, stream := ofList ([] : List D), id := i }, []) := rfl
  have hst : stepHeap ([] : List (HeapEntry D))
      ({ peeked := .no, stream := ofList ([] : List D), id := i } : HeapEntry D) []
      = .inr [] := rfl
  rw [pollNextL_eq_inr hpk hst]
  exact pollNextL_eq_none rfl

theorem pollNextL_single_yes {D : Type} (cmp : D → D → Ordering) (i : String)
    (d : D) (l : List D) :
    pollNextL cmp [{ peeked := .yes d, stream := ofList l, id := i }]
      = (.ready (some d), [{ peeked := .no, stream := ofList l, id := i }]) := by
  have hpk : pickTop cmp [({ peeked := .yes d, stream := ofList l, id := i } : HeapEntry D)]
      = some ([], { peeked := .yes d, stream := ofList l, id := i }, []) := rfl
  have hst : stepHeap ([] : List (HeapEntry D))
      ({ peeked := .yes d, stream := ofList l, id := i } : HeapEntry D) []
      = .inl (.ready (some d), [{ peeked := .no, stream := ofList l, id := i }]) := rfl
  exact pollNextL_eq_inl hpk hst

theorem pollNextL_single_no_cons {D : Type} (cmp : D → D → Ordering) (i : String)
    (x : D) (rest : List D) :
    pollNextL cmp [{ peeked := .no, stream := ofList (x :: rest), id := i }]
      = pollNextL cmp [{ peeked := .yes x, stream := ofList rest, id := i }] := by
  have hpk : pickTop cmp
      [({ peeked := .no, stream := ofList (x :: rest), id := i } : HeapEntry D)]
      = some ([], { peeked := .no, stream := ofList (x :: rest), id := i }, []) := rfl
  have hst : stepHeap ([] : List (HeapEntry D))
      ({ peeked := .no, stream := ofList (x :: rest), id := i } : HeapEntry D) []
      = .inr [{ peeked := .yes x, stream := ofList rest, id := i }] := rfl
  exact pollNextL_eq_inr hpk hst

theorem runK_single {D : Type} (cmp : D → D → Ordering) :
    ∀ (l : List D) (i : String),
    runK cmp [{ peeked := .no, stream := ofList l, id := i }] = l
    ∧ ∀ d, runK cmp [{ peeked := .yes d, stream := ofList l, id := i }] = d :: l := by
  intro l
  induction l with
  | nil =>
    intro i
    have hno : runK cmp [{ peeked := .no, stream := ofList ([] : List D), id := i }] = [] :=
      runK_eq_none (pollNextL_single_no_nil cmp i)
    refine ⟨hno, ?_⟩
    intro d
    rw [runK_eq_some (pollNextL_single_yes cmp i d []), hno]
  | cons x rest ih =>
    intro i
    have hno : runK cmp [{ peeked := .no, stream := ofList (x :: rest), id := i }]
        = x :: rest := by
      rw [runK_eq_some ((pollNextL_single_no_cons cmp i x rest).trans
        (pollNextL_single_yes cmp i x rest)), (ih i).1]
    refine ⟨hno, ?_⟩
    intro d
    rw [runK_eq_some (pollNextL_single_yes cmp i d (x :: rest)), hno]

/-- Claim C1: merging any finite collection of producers, each sorted
consistently with a lawful comparator (greater emitted first), yields a
permutation of the concatenated inputs that is itself sorted under the
comparator; merging zero producers answers end-of-sequence immediately with
the engine unchanged, and merging exactly one producer yields its sequence
unchanged. -/
theorem claim_C1 :
    (∀ (D : Type) (cmp : D → D → Ordering) (ls : List (List D)),
        (∀ a b, cmp a b = .gt ↔ cmp b a = .lt) →
        (∀ a b c, cmp a b ≠ .gt → cmp b c ≠ .gt → cmp a c ≠ .gt) →
        (∀ l ∈ ls, SortedBy cmp l) →
        (KMerge.run (mergeList (KMerge.by_cmp cmp) ls)).Perm ls.join
        ∧ SortedBy cmp (KMerge.run (mergeList (KMerge.by_cmp cmp) ls)))
    ∧ (∀ (D : Type) (cmp : D → D → Ordering),
        (KMerge.by_cmp cmp).poll_next = (.ready none, KMerge.by_cmp cmp)
        ∧ KMerge.run (KMerge.by_cmp cmp) = [])
    ∧ (∀ (D : Type) (cmp : D → D → Ordering) (l : List D),
        KMerge.run ((KMerge.by_cmp cmp).merge (ofList l)) = l) := by
  refine ⟨?_, ?_, ?_⟩
  · intro D cmp ls hsym htrans hsorted
    have hinv : HeapInv cmp (mergeList (KMerge.by_cmp cmp) ls).heap := by
      intro e he
      rcases mergeList_heap_mem ls (KMerge.by_cmp cmp) e he with h0 | ⟨l, hl, hp, hst⟩
      · simp [KMerge.by_cmp] at h0
      · refine ⟨?_, ?_⟩
        · rw [hst]
          intro p hpm
          obtain ⟨d, _, hd⟩ := List.mem_map.mp hpm
          exact ⟨d, hd.symm⟩
        · unfold SortedBy
          rw [hp, hst]
          simp only [peekedList, scriptItems_ofList, List.nil_append]
          exact hsorted l hl
    have hrun := runK_spec hsym htrans
      (weightL (mergeList (KMerge.by_cmp cmp) ls).heap) _ le_rfl hinv
    have hcmp : (mergeList (KMerge.by_cmp cmp) ls).cmp = cmp := by
      rw [mergeList_cmp]; rfl
    have hitems : itemsL (mergeList (KMerge.by_cmp cmp) ls).heap = ls.join := by
      rw [mergeList_items]
      simp [KMerge.by_cmp, itemsL]
    constructor
    · rw [KMerge.run, hcmp]
      rw [hitems] at hrun
      exact hrun.1
    · unfold SortedBy
      rw [KMerge.run, hcmp]
      exact hrun.2.chain'
  · intro D cmp
    have h1 : pollNextL cmp ([] : List (HeapEntry D)) = (.ready none, []) :=
      pollNextL_eq_none rfl
    constructor
    · unfold KMerge.poll_next
      rw [show (KMerge.by_cmp cmp).heap = ([] : List (HeapEntry D)) from rfl,
        show (KMerge.by_cmp cmp).cmp = cmp from rfl, h1]
      rfl
    · rw [KMerge.run]
      rw [show (KMerge.by_cmp cmp).cmp = cmp from rfl,
        show (KMerge.by_cmp cmp).heap = ([] : List (HeapEntry D)) from rfl]
      exact runK_eq_none h1
  · intro D cmp l
    rw [KMerge.run, KMerge.merge_cmp, KMerge.by_cmp_cmp]
    exact (runK_single cmp l (toString 1)).1

/-- Witness for claim C1: merging the descending-sorted inputs `[2,1]` and
`[2,0]` over `Fin 3` with the natural comparator. -/
theorem claim_C1_witness :
    (KMerge.run (mergeList (KMerge.by_cmp (fun a b : Fin 3 => compare a b))
        [[2, 1], [2, 0]])).Perm ([[2, 1], [2, 0]] : List (List (Fin 3))).join
    ∧ SortedBy (fun a b : Fin 3 => compare a b)
        (KMerge.run (mergeList (KMerge.by_cmp (fun a b : Fin 3 => compare a b))
          [[2, 1], [2, 0]])) :=
  claim_C1.1 (Fin 3) (fun a b => compare a b) [[2, 1], [2, 0]]
    (by decide) (by decide)
    (by
      intro l hl
      unfold SortedBy
      rcases List.mem_cons.mp hl with h | h
      · subst h
        exact List.chain'_cons.mpr ⟨by decide, List.chain'_singleton _⟩
      · rcases List.mem_cons.mp h with h' | h'
        · subst h'
          exact List.chain'_cons.mpr ⟨by decide, List.chain'_singleton _⟩
        · simp at h')

end StreamMore
